import Mathlib

/-!
# Indexed minimum priority queue (`indexPQ.hpp`)

A shallow embedding of the class template `IndexPriorityQueue<T>` and of the
properties its specification states.

Modelling conventions.

* A `std::vector` is a `List`; `operator[]` is `vget` / `vset`, indexed by a
  C++ `int` (an `Int` here).  An access outside the vector is undefined
  behaviour in C++; the embedding is total: such a read yields a fixed
  default value and such a write leaves the vector as it is.  The `Checked`
  variants of the operations read the same source lines with every access
  outside a vector as a fault (`none`); `runChecked_some` shows that a run
  without fault ends in the state of the total embedding.
* `int` is the unbounded `Int`: the arithmetic of the source (`2*i`,
  `2*i + 1`, `i/2`, `++size_`, `size_--`) stays far from the 32-bit limits
  for every capacity below `2^30`.  `parent` uses the truncating division
  of C++.
* The priority type `T` is a linear order (the source uses `<`, `>` and
  `<=` of `T`) with a default value (what `resize` fills the vector with).
* The two `while` loops are structural recursions on a fuel argument that
  is computed from the state (`swim`: the start position, `sink`: the size
  plus one); `swimLoop_fuel` and `sinkLoop_fuel` show that more fuel never
  changes the result, so the fuel never cuts a loop short (for `sink`, from
  every start position `k >= 0`; a negative position is an access outside
  the vector).
-/

set_option linter.unusedSectionVars false

namespace IndexPQ

/-! ## Vectors -/

/-- Read `xs[i]`; the default `d` stands for a read outside the vector. -/
def vget {α : Type} (d : α) (xs : List α) (i : Int) : α :=
  if 0 ≤ i then xs.getD i.toNat d else d

/-- Write `xs[i] = v`; a write outside the vector changes nothing. -/
def vset {α : Type} (xs : List α) (i : Int) (v : α) : List α :=
  if 0 ≤ i then xs.set i.toNat v else xs

/-- The call `std::swap(xs[i], xs[j])`. -/
def vswap {α : Type} (d : α) (xs : List α) (i j : Int) : List α :=
  vset (vset xs i (vget d xs j)) j (vget d xs i)

/-! ## Helper functions of the source -/

/-- Source: `leftChild` (line 44). -/
def leftChild (i : Int) : Int := 2 * i

/-- Source: `rightChild` (line 48). -/
def rightChild (i : Int) : Int := 2 * i + 1

/-- Source: `parent` (line 52); `/` of C++ truncates toward zero. -/
def parent (i : Int) : Int := Int.tdiv i 2

/-! ## The state of the class -/

/-- The four data members of `IndexPriorityQueue<T>` (lines 14 to 24). -/
structure IndexPriorityQueue (T : Type) where
  priorities : List T
  priorityQueue : List Int
  indexToPosition : List Int
  size_ : Int
deriving DecidableEq

namespace IndexPriorityQueue

variable {T : Type} [LinearOrder T] [Inhabited T]

/-- The expression `priorityQueue[p]`. -/
def pqAt (s : IndexPriorityQueue T) (p : Int) : Int := vget 0 s.priorityQueue p

/-- The expression `priorities[i]`. -/
def prioAt (s : IndexPriorityQueue T) (i : Int) : T := vget default s.priorities i

/-- The expression `indexToPosition[i]`. -/
def posAt (s : IndexPriorityQueue T) (i : Int) : Int := vget 0 s.indexToPosition i

/-- The expression `priorities[priorityQueue[p]]`. -/
def keyAt (s : IndexPriorityQueue T) (p : Int) : T := s.prioAt (s.pqAt p)

/-- Source: the constructor `IndexPriorityQueue(int N)` (lines 58 to 62). -/
def construct (N : Int) : IndexPriorityQueue T :=
  { priorities := List.replicate N.toNat default
    priorityQueue := List.replicate (N + 1).toNat 0
    indexToPosition := List.replicate N.toNat (-1)
    size_ := 0 }

/-- Source: `empty` (lines 65 to 67). -/
def empty (s : IndexPriorityQueue T) : Bool := s.size_ == 0

/-- Source: `size` (lines 70 to 72). -/
def size (s : IndexPriorityQueue T) : Int := s.size_

/-- Source: `contains` (lines 131 to 135). -/
def contains (s : IndexPriorityQueue T) (index : Int) : Bool :=
  if index < 0 ∨ index ≥ (s.indexToPosition.length : Int) then false
  else s.posAt index != -1

/-- The pair of swaps in the body of both loops (lines 142-143 and 161-162):
`std::swap(indexToPosition[priorityQueue[k]], indexToPosition[priorityQueue[j]])`
followed by `std::swap(priorityQueue[k], priorityQueue[j])`. -/
def swapSlots (s : IndexPriorityQueue T) (k j : Int) : IndexPriorityQueue T :=
  let s1 := { s with
    indexToPosition := vswap 0 s.indexToPosition (s.pqAt k) (s.pqAt j) }
  { s1 with priorityQueue := vswap 0 s1.priorityQueue k j }

/-- The `while` loop of `swim` (lines 140 to 145), at most `fuel` rounds. -/
def swimLoop : Nat → IndexPriorityQueue T → Int → IndexPriorityQueue T
  | 0, s, _ => s
  | fuel + 1, s, k =>
    if k > 1 ∧ s.keyAt k < s.keyAt (parent k) then
      swimLoop fuel (s.swapSlots k (parent k)) (parent k)
    else s

/-- Source: `swim` (lines 138 to 147). -/
def swim (s : IndexPriorityQueue T) (k : Int) : IndexPriorityQueue T :=
  swimLoop k.toNat s k

/-- The `while` loop of `sink` (lines 151 to 164), at most `fuel` rounds. -/
def sinkLoop : Nat → IndexPriorityQueue T → Int → IndexPriorityQueue T
  | 0, s, _ => s
  | fuel + 1, s, k =>
    if leftChild k ≤ s.size_ then
      let j := leftChild k
      let j := if j < s.size_ ∧ s.keyAt j > s.keyAt (j + 1) then j + 1 else j
      if s.keyAt k ≤ s.keyAt j then s
      else sinkLoop fuel (s.swapSlots k j) j
    else s

/-- Source: `sink` (lines 150 to 165). -/
def sink (s : IndexPriorityQueue T) (k : Int) : IndexPriorityQueue T :=
  sinkLoop (s.size_.toNat + 1) s k

/-- Source: `push` (lines 75 to 83). -/
def push (s : IndexPriorityQueue T) (priority : T) (index : Int) :
    IndexPriorityQueue T :=
  if s.contains index then s
  else
    let s1 := { s with priorities := vset s.priorities index priority }
    let s2 := { s1 with size_ := s1.size_ + 1 }
    let s3 := { s2 with priorityQueue := vset s2.priorityQueue s2.size_ index }
    let s4 := { s3 with indexToPosition := vset s3.indexToPosition index s3.size_ }
    s4.swim s4.size_

/-- Source: `pop` (lines 86 to 94). -/
def pop (s : IndexPriorityQueue T) : IndexPriorityQueue T :=
  if s.empty then s
  else
    let s1 := { s with priorityQueue := vswap 0 s.priorityQueue 1 s.size_ }
    let s2 := { s1 with indexToPosition := vset s1.indexToPosition (s1.pqAt 1) (-1) }
    let s3 := { s2 with size_ := s2.size_ - 1 }
    s3.sink 1

/-- Source: `erase` (lines 97 to 108). -/
def erase (s : IndexPriorityQueue T) (index : Int) : IndexPriorityQueue T :=
  if !s.contains index then s
  else
    let position := s.posAt index
    let s1 := { s with priorityQueue := vswap 0 s.priorityQueue position s.size_ }
    let s2 := { s1 with
      indexToPosition := vset s1.indexToPosition (s1.pqAt position) position }
    let s3 := { s2 with indexToPosition := vset s2.indexToPosition index (-1) }
    let s4 := { s3 with size_ := s3.size_ - 1 }
    (s4.swim position).sink position

/-- Source: `top` (lines 111 to 113).  A `const` member: it returns a pair
and no state. -/
def top (s : IndexPriorityQueue T) : T × Int :=
  (s.prioAt (s.pqAt 1), s.pqAt 1)

/-- Source: `changeKey` (lines 118 to 128). -/
def changeKey (s : IndexPriorityQueue T) (key : T) (index : Int) :
    IndexPriorityQueue T :=
  if !s.contains index then s.push key index
  else
    let s1 := { s with priorities := vset s.priorities index key }
    let position := s1.posAt index
    (s1.swim position).sink position

end IndexPriorityQueue

/-! ## Sequences of calls -/

/-- One mutating call of the public interface. -/
inductive Call (T : Type) where
  | push (priority : T) (index : Int)
  | pop
  | erase (index : Int)
  | changeKey (key : T) (index : Int)

variable {T : Type} [LinearOrder T] [Inhabited T]

/-- The contract of a call on a queue of capacity `N`: `push` and
`changeKey` need an index of `[0, N)`; `pop` and `erase` need nothing. -/
def Call.inContract (N : Int) : Call T → Bool
  | .push _ i => decide (0 ≤ i) && decide (i < N)
  | .pop => true
  | .erase _ => true
  | .changeKey _ i => decide (0 ≤ i) && decide (i < N)

/-- Perform one call. -/
def Call.perform (s : IndexPriorityQueue T) : Call T → IndexPriorityQueue T
  | .push p i => s.push p i
  | .pop => s.pop
  | .erase i => s.erase i
  | .changeKey k i => s.changeKey k i

/-- Perform a sequence of calls, the first one first. -/
def runCalls (s : IndexPriorityQueue T) (cs : List (Call T)) : IndexPriorityQueue T :=
  cs.foldl Call.perform s

/-- The states a client can reach: a freshly constructed queue of capacity
`N` followed by a finite sequence of calls that are all in contract. -/
def Reachable (N : Int) (s : IndexPriorityQueue T) : Prop :=
  ∃ cs : List (Call T), (∀ c ∈ cs, c.inContract N = true) ∧
    s = runCalls (IndexPriorityQueue.construct N) cs

/-- Record `top()` and call `pop()` until `empty()` holds, at most `fuel`
rounds; `drain` gives it the size as fuel, and a `pop` on a non-empty queue
lowers the size by one. -/
def drainLoop : Nat → IndexPriorityQueue T → List (T × Int)
  | 0, _ => []
  | fuel + 1, s => if s.empty then [] else s.top :: drainLoop fuel s.pop

/-- The client loop `while (!q.empty()) { record(q.top()); q.pop(); }`. -/
def drain (s : IndexPriorityQueue T) : List (T × Int) :=
  drainLoop s.size_.toNat s

/-- Capacity 2: `push(1,0); push(2,1); pop()`. -/
def callsPushPushPop : List (Call Int) :=
  [.push 1 0, .push 2 1, .pop]

/-- Capacity 3: `push(1,0); push(2,1); push(3,2); pop(); erase(0)`. -/
def callsPopThenErase : List (Call Int) :=
  [.push 1 0, .push 2 1, .push 3 2, .pop, .erase 0]

/-- Capacity 3: `push(1,0); push(2,1); push(3,2); pop(); push(10,1)`. -/
def callsPopThenPush : List (Call Int) :=
  [.push 1 0, .push 2 1, .push 3 2, .pop, .push 10 1]

/-- Capacity 2: `push(1,0); push(2,1); pop(); erase(0)`. -/
def callsPopErase : List (Call Int) :=
  [.push 1 0, .push 2 1, .pop, .erase 0]

/-- Capacity 2: `push(1,0); push(2,1); pop(); erase(0); erase(1)`. -/
def callsPopEraseErase : List (Call Int) :=
  [.push 1 0, .push 2 1, .pop, .erase 0, .erase 1]

/-- The round-trip scenario of the specification, on a queue of capacity 5:
`push(10,0); push(5,1); push(20,2); push(1,3); pop(); changeKey(0,2);
erase(1); pop()`. -/
def roundTrip : List (Call Int) :=
  [.push 10 0, .push 5 1, .push 20 2, .push 1 3, .pop, .changeKey 0 2, .erase 1, .pop]

/-- The calls `push(p, i)` for the pairs `(p, i)` of a list, in its order. -/
def pushCalls (l : List (T × Int)) : List (Call T) :=
  l.map (fun x => Call.push x.1 x.2)

/-! ## Predicates on states -/

/-- The transposition of the positions `a` and `b`. -/
def exch (a b p : Int) : Int := if p = a then b else if p = b then a else p

namespace IndexPriorityQueue

/-- Index `i` is held in one of the heap slots `1..size`. -/
def Held (s : IndexPriorityQueue T) (i : Int) : Prop :=
  ∃ p, 1 ≤ p ∧ p ≤ s.size_ ∧ s.pqAt p = i

/-- The heap array of a queue of capacity `N`: the vectors have the lengths
the constructor gives them, `0 <= size <= N`, and the heap slots `1..size`
hold distinct indices of `[0, N)`. -/
structure Slots (s : IndexPriorityQueue T) (N : Int) : Prop where
  len_priorities : (s.priorities.length : Int) = N
  len_priorityQueue : (s.priorityQueue.length : Int) = N + 1
  size_nonneg : 0 ≤ s.size_
  size_le : s.size_ ≤ N
  inRange : ∀ p, 1 ≤ p → p ≤ s.size_ → 0 ≤ s.pqAt p ∧ s.pqAt p < N
  distinct : ∀ p q, 1 ≤ p → p ≤ s.size_ → 1 ≤ q → q ≤ s.size_ →
    s.pqAt p = s.pqAt q → p = q

/-- The position lookup is the exact inverse of the heap array:
`indexToPosition[i] = p` exactly when heap slot `p` of `1..size` holds `i`,
and `indexToPosition[i] = -1` for every index held in no slot. -/
structure Inverse (s : IndexPriorityQueue T) (N : Int) : Prop where
  len_indexToPosition : (s.indexToPosition.length : Int) = N
  posOfSlot : ∀ i p, 0 ≤ i → i < N → 1 ≤ p → p ≤ s.size_ →
    (s.posAt i = p ↔ s.pqAt p = i)
  absent : ∀ i, 0 ≤ i → i < N → ¬ s.Held i → s.posAt i = -1

/-- Heap order: the priority of each slot is at most the priorities of its
children (the slots `2p` and `2p + 1`, where they are within `size`). -/
def HeapOrdered (s : IndexPriorityQueue T) : Prop :=
  ∀ p, 1 ≤ p →
    (leftChild p ≤ s.size_ → s.keyAt p ≤ s.keyAt (leftChild p)) ∧
    (rightChild p ≤ s.size_ → s.keyAt p ≤ s.keyAt (rightChild p))

/-- A well-formed state of a queue of capacity `N`. -/
structure WellFormed (s : IndexPriorityQueue T) (N : Int) : Prop where
  slots : s.Slots N
  inverse : s.Inverse N
  ordered : s.HeapOrdered

/-- Heap order everywhere except on the edges that touch slot `k`; the
parent of `k` is at most the children of `k`. -/
def OrderedBut (s : IndexPriorityQueue T) (k : Int) : Prop :=
  (∀ p, 2 ≤ p → p ≤ s.size_ → p ≠ k → p / 2 ≠ k → s.keyAt (p / 2) ≤ s.keyAt p) ∧
  (∀ c, 2 ≤ k → c ≤ s.size_ → c / 2 = k → s.keyAt (k / 2) ≤ s.keyAt c)

/-- Slot `k` is in order with its parent. -/
def UpOk (s : IndexPriorityQueue T) (k : Int) : Prop :=
  2 ≤ k → k ≤ s.size_ → s.keyAt (k / 2) ≤ s.keyAt k

/-- Slot `k` is in order with its children. -/
def DownOk (s : IndexPriorityQueue T) (k : Int) : Prop :=
  ∀ c, c ≤ s.size_ → c / 2 = k → s.keyAt k ≤ s.keyAt c

/-- The state `s` has the priorities, the size and the held indices of `s0`. -/
structure SameContent (s0 s : IndexPriorityQueue T) : Prop where
  priorities_eq : s.priorities = s0.priorities
  size_eq : s.size_ = s0.size_
  held_iff : ∀ i, s.Held i ↔ s0.Held i

/-- Heap order stated from the child: every slot `2..size` is at least its
parent (`heapOrdered_iff` shows it is the same as `HeapOrdered`). -/
def ParentOrdered (s : IndexPriorityQueue T) : Prop :=
  ∀ p, 2 ≤ p → p ≤ s.size_ → s.keyAt (p / 2) ≤ s.keyAt p

/-- The child that `sink` selects at slot `k` (lines 152 and 155). -/
def childOf (s : IndexPriorityQueue T) (k : Int) : Int :=
  if leftChild k < s.size_ ∧ s.keyAt (leftChild k) > s.keyAt (leftChild k + 1)
  then leftChild k + 1 else leftChild k

/-! ### Executable checks of the predicates -/

/-- The test `f` holds at every position of `1..n`. -/
def allFrom1 (n : Int) (f : Int → Bool) : Bool :=
  (List.range n.toNat).all (fun m => f ((m : Int) + 1))

/-- The test `f` holds at every index of `[0, n)`. -/
def allFrom0 (n : Int) (f : Int → Bool) : Bool :=
  (List.range n.toNat).all (fun m => f (m : Int))

/-- Executable check of `Slots`. -/
def slotsB (s : IndexPriorityQueue T) (N : Int) : Bool :=
  decide ((s.priorities.length : Int) = N) &&
  decide ((s.priorityQueue.length : Int) = N + 1) &&
  decide (0 ≤ s.size_) && decide (s.size_ ≤ N) &&
  allFrom1 s.size_ (fun p => decide (0 ≤ s.pqAt p) && decide (s.pqAt p < N)) &&
  allFrom1 s.size_ (fun p => allFrom1 s.size_ (fun q =>
    decide (s.pqAt p = s.pqAt q → p = q)))

/-- Executable check of `Inverse`. -/
def inverseB (s : IndexPriorityQueue T) (N : Int) : Bool :=
  decide ((s.indexToPosition.length : Int) = N) &&
  allFrom1 s.size_ (fun p => decide (s.posAt (s.pqAt p) = p)) &&
  allFrom0 N (fun i => decide (s.posAt i = -1) ||
    (decide (1 ≤ s.posAt i) && decide (s.posAt i ≤ s.size_) &&
      decide (s.pqAt (s.posAt i) = i)))

/-- Executable check of heap order. -/
def heapOrderedB (s : IndexPriorityQueue T) : Bool :=
  allFrom1 s.size_ (fun p => decide (2 ≤ p → s.keyAt (p / 2) ≤ s.keyAt p))

/-- Executable check of `WellFormed`. -/
def wellFormedB (s : IndexPriorityQueue T) (N : Int) : Bool :=
  s.slotsB N && s.inverseB N && s.heapOrderedB

/-! ### The loops with an explicit account of their rounds -/

/-- The loop of `swim` (lines 140 to 145) run for at most `fuel` tests of its
condition: `some` of the final state once the condition is found false,
`none` when the tests run out first. -/
def swimRun : Nat → IndexPriorityQueue T → Int → Option (IndexPriorityQueue T)
  | 0, _, _ => none
  | fuel + 1, s, k =>
    if k > 1 ∧ s.keyAt k < s.keyAt (parent k) then
      swimRun fuel (s.swapSlots k (parent k)) (parent k)
    else some s

/-- The loop of `sink` (lines 151 to 164) run for at most `fuel` tests of its
condition: `some` of the final state once the loop is left (condition false
or `break`), `none` when the tests run out first. -/
def sinkRun : Nat → IndexPriorityQueue T → Int → Option (IndexPriorityQueue T)
  | 0, _, _ => none
  | fuel + 1, s, k =>
    if leftChild k ≤ s.size_ then
      let j := leftChild k
      let j := if j < s.size_ ∧ s.keyAt j > s.keyAt (j + 1) then j + 1 else j
      if s.keyAt k ≤ s.keyAt j then some s
      else sinkRun fuel (s.swapSlots k j) j
    else some s

/-- The number of swaps (rounds of the loop body, lines 142 to 144) that the
loop of `swim` performs. -/
def swimRounds : Nat → IndexPriorityQueue T → Int → Nat
  | 0, _, _ => 0
  | fuel + 1, s, k =>
    if k > 1 ∧ s.keyAt k < s.keyAt (parent k) then
      swimRounds fuel (s.swapSlots k (parent k)) (parent k) + 1
    else 0

/-- The number of swaps that the call `swim(k)` performs. -/
def swimSwaps (s : IndexPriorityQueue T) (k : Int) : Nat :=
  swimRounds k.toNat s k

/-- The number of swaps (lines 161 to 163) that the loop of `sink` performs. -/
def sinkRounds : Nat → IndexPriorityQueue T → Int → Nat
  | 0, _, _ => 0
  | fuel + 1, s, k =>
    if leftChild k ≤ s.size_ then
      let j := leftChild k
      let j := if j < s.size_ ∧ s.keyAt j > s.keyAt (j + 1) then j + 1 else j
      if s.keyAt k ≤ s.keyAt j then 0
      else sinkRounds fuel (s.swapSlots k j) j + 1
    else 0

/-- The number of swaps that the call `sink(k)` performs. -/
def sinkSwaps (s : IndexPriorityQueue T) (k : Int) : Nat :=
  sinkRounds (s.size_.toNat + 1) s k

/-- The state in which `erase` calls `swim(position)`: lines 101 to 104 done
(the guard of line 98 passed). -/
def erasePrepared (s : IndexPriorityQueue T) (index : Int) : IndexPriorityQueue T :=
  let position := s.posAt index
  let s1 := { s with priorityQueue := vswap 0 s.priorityQueue position s.size_ }
  let s2 := { s1 with
    indexToPosition := vset s1.indexToPosition (s1.pqAt position) position }
  let s3 := { s2 with indexToPosition := vset s2.indexToPosition index (-1) }
  { s3 with size_ := s3.size_ - 1 }

/-- The state in which `changeKey` calls `swim(position)` on a present index:
line 122 done. -/
def changeKeyPrepared (s : IndexPriorityQueue T) (key : T) (index : Int) :
    IndexPriorityQueue T :=
  { s with priorities := vset s.priorities index key }

/-- The body of `contains` (lines 132 to 134) together with the list of the
positions of `indexToPosition` that it reads. -/
def containsLogged (s : IndexPriorityQueue T) (index : Int) : Bool × List Int :=
  if index < 0 ∨ index ≥ (s.indexToPosition.length : Int) then (false, [])
  else (s.posAt index != -1, [index])

/-- The number of indices `i` of `[0, N)` for which `contains(i)` is true. -/
def presentCount (s : IndexPriorityQueue T) (N : Int) : Nat :=
  ((List.range N.toNat).filter (fun i => s.contains (i : Int))).length

/-! ### The operations with every vector access checked

A second reading of the same source lines in which `operator[]` outside the
vector is a fault (`none`) instead of a default value.  The conditions keep
the short-circuit order of `&&`. -/

/-- Checked read of `xs[i]`: `none` outside the vector. -/
def vgetChecked {α : Type} (xs : List α) (i : Int) : Option α :=
  if 0 ≤ i ∧ i < (xs.length : Int) then xs.get? i.toNat else none

/-- Checked write `xs[i] = v`: `none` outside the vector. -/
def vsetChecked {α : Type} (xs : List α) (i : Int) (v : α) : Option (List α) :=
  if 0 ≤ i ∧ i < (xs.length : Int) then some (xs.set i.toNat v) else none

/-- Checked `std::swap(xs[i], xs[j])`. -/
def vswapChecked {α : Type} (xs : List α) (i j : Int) : Option (List α) := do
  let a ← vgetChecked xs i
  let b ← vgetChecked xs j
  let xs1 ← vsetChecked xs i b
  vsetChecked xs1 j a

/-- Checked `priorities[priorityQueue[p]]`. -/
def keyAtChecked (s : IndexPriorityQueue T) (p : Int) : Option T := do
  let i ← vgetChecked s.priorityQueue p
  vgetChecked s.priorities i

/-- Checked `contains` (lines 131 to 135). -/
def containsChecked (s : IndexPriorityQueue T) (index : Int) : Option Bool :=
  if index < 0 ∨ index ≥ (s.indexToPosition.length : Int) then some false
  else do
    let v ← vgetChecked s.indexToPosition index
    pure (v != -1)

/-- Checked pair of swaps of the loop bodies (lines 142-143 and 161-162). -/
def swapSlotsChecked (s : IndexPriorityQueue T) (k j : Int) :
    Option (IndexPriorityQueue T) := do
  let a ← vgetChecked s.priorityQueue k
  let b ← vgetChecked s.priorityQueue j
  let itp ← vswapChecked s.indexToPosition a b
  let s1 := { s with indexToPosition := itp }
  let pq ← vswapChecked s1.priorityQueue k j
  pure { s1 with priorityQueue := pq }

/-- Checked loop of `swim` (lines 140 to 145). -/
def swimLoopChecked : Nat → IndexPriorityQueue T → Int → Option (IndexPriorityQueue T)
  | 0, s, _ => some s
  | fuel + 1, s, k =>
    if k > 1 then do
      let a ← s.keyAtChecked k
      let b ← s.keyAtChecked (parent k)
      if a < b then do
        let s1 ← s.swapSlotsChecked k (parent k)
        swimLoopChecked fuel s1 (parent k)
      else pure s
    else some s

/-- Checked `swim` (lines 138 to 147). -/
def swimChecked (s : IndexPriorityQueue T) (k : Int) : Option (IndexPriorityQueue T) :=
  swimLoopChecked k.toNat s k

/-- Checked loop of `sink` (lines 151 to 164). -/
def sinkLoopChecked : Nat → IndexPriorityQueue T → Int → Option (IndexPriorityQueue T)
  | 0, s, _ => some s
  | fuel + 1, s, k =>
    if leftChild k ≤ s.size_ then do
      let j := leftChild k
      let j ← (if j < s.size_ then do
          let a ← s.keyAtChecked j
          let b ← s.keyAtChecked (j + 1)
          pure (if a > b then j + 1 else j)
        else pure j)
      let a ← s.keyAtChecked k
      let b ← s.keyAtChecked j
      if a ≤ b then pure s
      else do
        let s1 ← s.swapSlotsChecked k j
        sinkLoopChecked fuel s1 j
    else some s

/-- Checked `sink` (lines 150 to 165). -/
def sinkChecked (s : IndexPriorityQueue T) (k : Int) : Option (IndexPriorityQueue T) :=
  sinkLoopChecked (s.size_.toNat + 1) s k

/-- Checked `push` (lines 75 to 83). -/
def pushChecked (s : IndexPriorityQueue T) (priority : T) (index : Int) :
    Option (IndexPriorityQueue T) := do
  let present ← s.containsChecked index
  if present then pure s
  else do
    let pr ← vsetChecked s.priorities index priority
    let s1 := { s with priorities := pr }
    let s2 := { s1 with size_ := s1.size_ + 1 }
    let pq ← vsetChecked s2.priorityQueue s2.size_ index
    let s3 := { s2 with priorityQueue := pq }
    let itp ← vsetChecked s3.indexToPosition index s3.size_
    let s4 := { s3 with indexToPosition := itp }
    s4.swimChecked s4.size_

/-- Checked `pop` (lines 86 to 94). -/
def popChecked (s : IndexPriorityQueue T) : Option (IndexPriorityQueue T) :=
  if s.empty then some s
  else do
    let pq ← vswapChecked s.priorityQueue 1 s.size_
    let s1 := { s with priorityQueue := pq }
    let root ← vgetChecked s1.priorityQueue 1
    let itp ← vsetChecked s1.indexToPosition root (-1)
    let s2 := { s1 with indexToPosition := itp }
    let s3 := { s2 with size_ := s2.size_ - 1 }
    s3.sinkChecked 1

/-- Checked `erase` (lines 97 to 108). -/
def eraseChecked (s : IndexPriorityQueue T) (index : Int) :
    Option (IndexPriorityQueue T) := do
  let present ← s.containsChecked index
  if !present then pure s
  else do
    let position ← vgetChecked s.indexToPosition index
    let pq ← vswapChecked s.priorityQueue position s.size_
    let s1 := { s with priorityQueue := pq }
    let moved ← vgetChecked s1.priorityQueue position
    let itp ← vsetChecked s1.indexToPosition moved position
    let s2 := { s1 with indexToPosition := itp }
    let itp2 ← vsetChecked s2.indexToPosition index (-1)
    let s3 := { s2 with indexToPosition := itp2 }
    let s4 := { s3 with size_ := s3.size_ - 1 }
    let s5 ← s4.swimChecked position
    s5.sinkChecked position

/-- Checked `changeKey` (lines 118 to 128). -/
def changeKeyChecked (s : IndexPriorityQueue T) (key : T) (index : Int) :
    Option (IndexPriorityQueue T) := do
  let present ← s.containsChecked index
  if !present then s.pushChecked key index
  else do
    let pr ← vsetChecked s.priorities index key
    let s1 := { s with priorities := pr }
    let position ← vgetChecked s1.indexToPosition index
    let s2 ← s1.swimChecked position
    s2.sinkChecked position

/-- Perform one call with every access checked. -/
def performChecked (s : IndexPriorityQueue T) : Call T → Option (IndexPriorityQueue T)
  | .push p i => s.pushChecked p i
  | .pop => s.popChecked
  | .erase i => s.eraseChecked i
  | .changeKey k i => s.changeKeyChecked k i

/-- Perform a sequence of calls with every access checked: `none` as soon as
one call accesses a vector outside its bounds. -/
def runChecked (s : IndexPriorityQueue T) : List (Call T) → Option (IndexPriorityQueue T)
  | [] => some s
  | c :: cs => (s.performChecked c).bind (fun s1 => runChecked s1 cs)

/-! ### Concrete states and call sequences -/

/-- A queue of capacity 4 over `Int` priorities that holds the indices 1, 2
and 0 (priorities 3, 4 and 5) in the heap slots 1, 2 and 3. -/
def sampleHeap : IndexPriorityQueue Int :=
  { priorities := [5, 3, 4, 0]
    priorityQueue := [0, 1, 2, 0, 0]
    indexToPosition := [3, 1, 2, -1]
    size_ := 3 }

/-- A queue of capacity 2 that holds index 0 (priority 1) at the root and
index 1 (priority 2) in slot 2: the state after `push(1,0); push(2,1)`. -/
def twoHeap : IndexPriorityQueue Int :=
  { priorities := [1, 2]
    priorityQueue := [0, 0, 1]
    indexToPosition := [1, 2]
    size_ := 2 }

/-- A queue of capacity 6 that holds the indices 0 to 5 in the heap slots 1
to 6, with the priorities 1, 10, 2, 11, 12 and 3: the last slot is smaller
than the parent of slot 4. -/
def deepHeap : IndexPriorityQueue Int :=
  { priorities := [1, 10, 2, 11, 12, 3]
    priorityQueue := [0, 0, 1, 2, 3, 4, 5]
    indexToPosition := [1, 2, 3, 4, 5, 6]
    size_ := 6 }

end IndexPriorityQueue

/-! ## Vectors: reads after writes -/

theorem length_vset {α : Type} (xs : List α) (i : Int) (v : α) :
    (vset xs i v).length = xs.length := by
  unfold vset
  split <;> simp

theorem length_vswap {α : Type} (d : α) (xs : List α) (i j : Int) :
    (vswap d xs i j).length = xs.length := by
  simp [vswap, length_vset]

theorem vget_vset_ne {α : Type} (d : α) (xs : List α) (i j : Int) (v : α) (h : j ≠ i) :
    vget d (vset xs i v) j = vget d xs j := by
  unfold vget vset
  by_cases hj : 0 ≤ j <;> by_cases hi : 0 ≤ i <;> simp [hj, hi]
  have : i.toNat ≠ j.toNat := by omega
  simp [List.getD_eq_getElem?_getD, List.getElem?_set, this]

theorem vget_vset_eq {α : Type} (d : α) (xs : List α) (i : Int) (v : α)
    (h0 : 0 ≤ i) (h1 : i < (xs.length : Int)) :
    vget d (vset xs i v) i = v := by
  unfold vget vset
  have : i.toNat < xs.length := by omega
  simp [h0, List.getD_eq_getElem?_getD, List.getElem?_set, this]

theorem vget_vset {α : Type} (d : α) (xs : List α) (i j : Int) (v : α)
    (h0 : 0 ≤ i) (h1 : i < (xs.length : Int)) :
    vget d (vset xs i v) j = if j = i then v else vget d xs j := by
  by_cases h : j = i
  · subst h; simp [vget_vset_eq d xs j v h0 h1]
  · simp [h, vget_vset_ne d xs i j v h]

theorem vget_vswap {α : Type} (d : α) (xs : List α) (i j m : Int)
    (hi0 : 0 ≤ i) (hi1 : i < (xs.length : Int)) (hj0 : 0 ≤ j) (hj1 : j < (xs.length : Int)) :
    vget d (vswap d xs i j) m = vget d xs (exch i j m) := by
  unfold vswap exch
  rw [vget_vset d _ j m _ hj0 (by rw [length_vset]; exact hj1), vget_vset d _ i m _ hi0 hi1]
  by_cases h1 : m = j
  · subst h1
    by_cases h2 : m = i
    · subst h2; simp
    · simp [h2]
  · by_cases h2 : m = i
    · subst h2; simp [h1]
    · simp [h1, h2]

/-! ## Positions -/

theorem parent_eq (k : Int) (h : 0 ≤ k) : parent k = k / 2 := by
  unfold parent
  exact Int.tdiv_eq_ediv h (by decide)

theorem exch_left (a b : Int) : exch a b a = b := by simp [exch]

theorem exch_right (a b : Int) : exch a b b = a := by
  unfold exch
  by_cases h : b = a <;> simp [h]

theorem exch_other (a b p : Int) (ha : p ≠ a) (hb : p ≠ b) : exch a b p = p := by
  simp [exch, ha, hb]

theorem exch_exch (a b p : Int) : exch a b (exch a b p) = p := by
  unfold exch
  split_ifs <;> simp_all

theorem exch_bounds (a b p lo hi : Int) (ha : lo ≤ a ∧ a ≤ hi) (hb : lo ≤ b ∧ b ≤ hi)
    (hp : lo ≤ p ∧ p ≤ hi) : lo ≤ exch a b p ∧ exch a b p ≤ hi := by
  unfold exch
  split_ifs <;> omega

/-- A map that is injective on the three points commutes with a transposition. -/
theorem exch_map (f : Int → Int) (a b p : Int)
    (hpa : f p = f a → p = a) (hpb : f p = f b → p = b) :
    exch (f a) (f b) (f (exch a b p)) = f p := by
  by_cases h1 : p = a
  · subst h1
    rw [exch_left, exch_right]
  · by_cases h2 : p = b
    · subst h2
      rw [exch_right, exch_left]
    · rw [exch_other a b p h1 h2]
      exact exch_other _ _ _ (fun h => h1 (hpa h)) (fun h => h2 (hpb h))

namespace IndexPriorityQueue

/-! ## One exchange of two heap slots -/

theorem swapSlots_size (s : IndexPriorityQueue T) (a b : Int) :
    (s.swapSlots a b).size_ = s.size_ := rfl

theorem swapSlots_priorities (s : IndexPriorityQueue T) (a b : Int) :
    (s.swapSlots a b).priorities = s.priorities := rfl

theorem pqAt_swapSlots {s : IndexPriorityQueue T} {N : Int} (hS : s.Slots N) (a b p : Int)
    (ha : 1 ≤ a) (ha1 : a ≤ s.size_) (hb : 1 ≤ b) (hb1 : b ≤ s.size_) :
    (s.swapSlots a b).pqAt p = s.pqAt (exch a b p) := by
  have h1 := hS.len_priorityQueue
  have h2 := hS.size_le
  unfold swapSlots pqAt
  exact vget_vswap 0 s.priorityQueue a b p (by omega) (by omega) (by omega) (by omega)

theorem keyAt_swapSlots {s : IndexPriorityQueue T} {N : Int} (hS : s.Slots N) (a b p : Int)
    (ha : 1 ≤ a) (ha1 : a ≤ s.size_) (hb : 1 ≤ b) (hb1 : b ≤ s.size_) :
    (s.swapSlots a b).keyAt p = s.keyAt (exch a b p) := by
  unfold keyAt
  rw [pqAt_swapSlots hS a b p ha ha1 hb hb1]
  rfl

theorem posAt_swapSlots {s : IndexPriorityQueue T} {N : Int} (hS : s.Slots N)
    (hlen : (s.indexToPosition.length : Int) = N) (a b i : Int)
    (ha : 1 ≤ a) (ha1 : a ≤ s.size_) (hb : 1 ≤ b) (hb1 : b ≤ s.size_) :
    (s.swapSlots a b).posAt i = s.posAt (exch (s.pqAt a) (s.pqAt b) i) := by
  have h1 := hS.inRange a ha ha1
  have h2 := hS.inRange b hb hb1
  unfold swapSlots posAt
  exact vget_vswap 0 s.indexToPosition _ _ i (by omega) (by omega) (by omega) (by omega)

theorem slots_swapSlots {s : IndexPriorityQueue T} {N : Int} (hS : s.Slots N) (a b : Int)
    (ha : 1 ≤ a) (ha1 : a ≤ s.size_) (hb : 1 ≤ b) (hb1 : b ≤ s.size_) :
    (s.swapSlots a b).Slots N := by
  have hx : ∀ p, 1 ≤ p → p ≤ s.size_ → 1 ≤ exch a b p ∧ exch a b p ≤ s.size_ :=
    fun p h1 h2 => exch_bounds a b p 1 s.size_ ⟨ha, ha1⟩ ⟨hb, hb1⟩ ⟨h1, h2⟩
  refine ⟨hS.len_priorities, ?_, hS.size_nonneg, hS.size_le, ?_, ?_⟩
  · have := hS.len_priorityQueue
    simpa [IndexPriorityQueue.swapSlots, length_vswap] using this
  · intro p h1 h2
    rw [pqAt_swapSlots hS a b p ha ha1 hb hb1]
    exact hS.inRange _ (hx p h1 h2).1 (hx p h1 h2).2
  · intro p q hp hp1 hq hq1 h
    rw [pqAt_swapSlots hS a b p ha ha1 hb hb1, pqAt_swapSlots hS a b q ha ha1 hb hb1] at h
    have := hS.distinct _ _ (hx p hp hp1).1 (hx p hp hp1).2 (hx q hq hq1).1 (hx q hq hq1).2 h
    have h3 := congrArg (exch a b) this
    rwa [exch_exch, exch_exch] at h3

theorem held_swapSlots {s : IndexPriorityQueue T} {N : Int} (hS : s.Slots N) (a b i : Int)
    (ha : 1 ≤ a) (ha1 : a ≤ s.size_) (hb : 1 ≤ b) (hb1 : b ≤ s.size_) :
    (s.swapSlots a b).Held i ↔ s.Held i := by
  have hx : ∀ p, 1 ≤ p → p ≤ s.size_ → 1 ≤ exch a b p ∧ exch a b p ≤ s.size_ :=
    fun p h1 h2 => exch_bounds a b p 1 s.size_ ⟨ha, ha1⟩ ⟨hb, hb1⟩ ⟨h1, h2⟩
  constructor
  · rintro ⟨p, h1, h2, h3⟩
    rw [pqAt_swapSlots hS a b p ha ha1 hb hb1] at h3
    exact ⟨exch a b p, (hx p h1 h2).1, (hx p h1 h2).2, h3⟩
  · rintro ⟨p, h1, h2, h3⟩
    refine ⟨exch a b p, (hx p h1 h2).1, (hx p h1 h2).2, ?_⟩
    rw [pqAt_swapSlots hS a b _ ha ha1 hb hb1, exch_exch]
    exact h3

/-! ## The position lookup -/

theorem Inverse.pos_pqAt {s : IndexPriorityQueue T} {N : Int} (hS : s.Slots N)
    (hI : s.Inverse N) (p : Int) (h1 : 1 ≤ p) (h2 : p ≤ s.size_) :
    s.posAt (s.pqAt p) = p :=
  (hI.posOfSlot (s.pqAt p) p (hS.inRange p h1 h2).1 (hS.inRange p h1 h2).2 h1 h2).2 rfl

theorem Inverse.of_slots {s : IndexPriorityQueue T} {N : Int}
    (hlen : (s.indexToPosition.length : Int) = N)
    (hpos : ∀ p, 1 ≤ p → p ≤ s.size_ → s.posAt (s.pqAt p) = p)
    (habs : ∀ i, 0 ≤ i → i < N → ¬ s.Held i → s.posAt i = -1) : s.Inverse N := by
  refine ⟨hlen, ?_, habs⟩
  intro i p hi hi1 hp hp1
  constructor
  · intro h
    by_cases hh : s.Held i
    · obtain ⟨q, hq, hq1, hq2⟩ := hh
      have := hpos q hq hq1
      rw [hq2, h] at this
      rw [this]
      exact hq2
    · have := habs i hi hi1 hh
      omega
  · intro h
    rw [← h]
    exact hpos p hp hp1

theorem inverse_swapSlots {s : IndexPriorityQueue T} {N : Int} (hS : s.Slots N)
    (hI : s.Inverse N) (a b : Int)
    (ha : 1 ≤ a) (ha1 : a ≤ s.size_) (hb : 1 ≤ b) (hb1 : b ≤ s.size_) :
    (s.swapSlots a b).Inverse N := by
  apply Inverse.of_slots
  · have := hI.len_indexToPosition
    simpa [IndexPriorityQueue.swapSlots, length_vswap] using this
  · intro p hp hp1
    rw [swapSlots_size] at hp1
    rw [posAt_swapSlots hS hI.len_indexToPosition a b _ ha ha1 hb hb1,
      pqAt_swapSlots hS a b p ha ha1 hb hb1,
      exch_map s.pqAt a b p (fun h => hS.distinct p a hp hp1 ha ha1 h)
        (fun h => hS.distinct p b hp hp1 hb hb1 h)]
    exact hI.pos_pqAt hS p hp hp1
  · intro i hi hi1 hh
    rw [held_swapSlots hS a b i ha ha1 hb hb1] at hh
    rw [posAt_swapSlots hS hI.len_indexToPosition a b _ ha ha1 hb hb1, exch_other]
    · exact hI.absent i hi hi1 hh
    · intro h
      exact hh ⟨a, ha, ha1, h.symm⟩
    · intro h
      exact hh ⟨b, hb, hb1, h.symm⟩

theorem contains_iff_held {s : IndexPriorityQueue T} {N : Int} (hS : s.Slots N)
    (hI : s.Inverse N) (i : Int) : s.contains i = true ↔ s.Held i := by
  have hlen := hI.len_indexToPosition
  unfold contains
  constructor
  · intro h
    by_contra hh
    split at h
    · exact absurd h (by simp)
    · rename_i hr
      have := hI.absent i (by omega) (by omega) hh
      simp [this] at h
  · rintro ⟨p, hp, hp1, rfl⟩
    have hr := hS.inRange p hp hp1
    have := hI.pos_pqAt hS p hp hp1
    rw [if_neg (by omega), this]
    simp
    omega

/-! ## Heap order, seen from the parent and from the child -/

theorem heapOrdered_iff (s : IndexPriorityQueue T) : s.HeapOrdered ↔ s.ParentOrdered := by
  constructor
  · intro h p hp hp1
    have hq := h (p / 2) (by omega)
    unfold leftChild rightChild at hq
    rcases Int.emod_two_eq_zero_or_one p with h0 | h0
    · have e : 2 * (p / 2) = p := by omega
      have := hq.1 (by omega)
      rwa [e] at this
    · have e : 2 * (p / 2) + 1 = p := by omega
      have := hq.2 (by omega)
      rwa [e] at this
  · intro h p hp
    unfold leftChild rightChild
    constructor
    · intro h1
      have := h (2 * p) (by omega) h1
      rwa [show 2 * p / 2 = p by omega] at this
    · intro h1
      have := h (2 * p + 1) (by omega) h1
      rwa [show (2 * p + 1) / 2 = p by omega] at this

theorem ParentOrdered.of_parts {s : IndexPriorityQueue T} {k : Int}
    (hB : s.OrderedBut k) (hU : s.UpOk k) (hD : s.DownOk k) : s.ParentOrdered := by
  intro p hp hp1
  by_cases h1 : p = k
  · subst h1
    exact hU hp hp1
  · by_cases h2 : p / 2 = k
    · have := hD p hp1 h2
      rwa [← h2] at this
    · exact hB.1 p hp hp1 h1 h2

theorem ParentOrdered.orderedBut {s : IndexPriorityQueue T} (h : s.ParentOrdered) (k : Int) :
    s.OrderedBut k := by
  refine ⟨fun p hp hp1 _ _ => h p hp hp1, ?_⟩
  intro c hk hc hck
  have h1 := h k hk (by omega)
  have h2 := h c (by omega) hc
  rw [hck] at h2
  exact le_trans h1 h2

/-! ## The loops keep the structure -/

theorem swimLoop_succ (n : Nat) (s : IndexPriorityQueue T) (k : Int) :
    swimLoop (n + 1) s k =
      if k > 1 ∧ s.keyAt k < s.keyAt (parent k) then
        swimLoop n (s.swapSlots k (parent k)) (parent k)
      else s := rfl

theorem sinkLoop_succ (n : Nat) (s : IndexPriorityQueue T) (k : Int) :
    sinkLoop (n + 1) s k =
      if leftChild k ≤ s.size_ then
        if s.keyAt k ≤ s.keyAt (s.childOf k) then s
        else sinkLoop n (s.swapSlots k (s.childOf k)) (s.childOf k)
      else s := rfl

theorem childOf_cases (s : IndexPriorityQueue T) (k : Int) :
    s.childOf k = 2 * k ∨ (s.childOf k = 2 * k + 1 ∧ 2 * k < s.size_) := by
  unfold childOf leftChild
  split_ifs with h
  · exact Or.inr ⟨rfl, h.1⟩
  · exact Or.inl rfl

theorem childOf_le (s : IndexPriorityQueue T) (k c : Int) (hc : c ≤ s.size_)
    (hck : c = 2 * k ∨ c = 2 * k + 1) : s.keyAt (s.childOf k) ≤ s.keyAt c := by
  unfold childOf leftChild
  split_ifs with h
  · rcases hck with rfl | rfl
    · exact le_of_lt h.2
    · exact le_refl _
  · rcases hck with rfl | rfl
    · exact le_refl _
    · have : ¬ s.keyAt (2 * k) > s.keyAt (2 * k + 1) := fun h1 => h ⟨by omega, h1⟩
      exact not_lt.mp this

theorem swimLoop_keeps {N : Int} (P : IndexPriorityQueue T → Prop)
    (step : ∀ (s : IndexPriorityQueue T) (a b : Int), s.Slots N → P s →
      1 ≤ a → a ≤ s.size_ → 1 ≤ b → b ≤ s.size_ → P (s.swapSlots a b)) :
    ∀ (fuel : Nat) (s : IndexPriorityQueue T) (k : Int), s.Slots N → P s → k ≤ s.size_ →
      (swimLoop fuel s k).Slots N ∧ P (swimLoop fuel s k) := by
  intro fuel
  induction fuel with
  | zero =>
    intro s k hS hP _
    exact ⟨hS, hP⟩
  | succ n ih =>
    intro s k hS hP hk
    rw [swimLoop_succ]
    split_ifs with hc
    · have hk1 : 1 < k := hc.1
      rw [parent_eq k (by omega)]
      have hq : 1 ≤ k / 2 ∧ k / 2 ≤ s.size_ := by omega
      apply ih
      · exact slots_swapSlots hS k (k / 2) (by omega) hk hq.1 hq.2
      · exact step s k (k / 2) hS hP (by omega) hk hq.1 hq.2
      · rw [swapSlots_size]
        exact hq.2
    · exact ⟨hS, hP⟩

theorem sinkLoop_keeps {N : Int} (P : IndexPriorityQueue T → Prop)
    (step : ∀ (s : IndexPriorityQueue T) (a b : Int), s.Slots N → P s →
      1 ≤ a → a ≤ s.size_ → 1 ≤ b → b ≤ s.size_ → P (s.swapSlots a b)) :
    ∀ (fuel : Nat) (s : IndexPriorityQueue T) (k : Int), s.Slots N → P s → 1 ≤ k →
      (sinkLoop fuel s k).Slots N ∧ P (sinkLoop fuel s k) := by
  intro fuel
  induction fuel with
  | zero =>
    intro s k hS hP _
    exact ⟨hS, hP⟩
  | succ n ih =>
    intro s k hS hP hk
    rw [sinkLoop_succ]
    unfold leftChild
    split_ifs with hc hle
    · exact ⟨hS, hP⟩
    · have hj := childOf_cases s k
      have hj1 : 1 ≤ s.childOf k ∧ s.childOf k ≤ s.size_ := by omega
      apply ih
      · exact slots_swapSlots hS k _ hk (by omega) hj1.1 hj1.2
      · exact step s k _ hS hP hk (by omega) hj1.1 hj1.2
      · exact hj1.1
    · exact ⟨hS, hP⟩

/-! ## The loops restore heap order -/

theorem swimLoop_ordered {N : Int} :
    ∀ (fuel : Nat) (s : IndexPriorityQueue T) (k : Int), s.Slots N → 1 ≤ k → k ≤ s.size_ →
      k ≤ (fuel : Int) → s.OrderedBut k → s.DownOk k →
      (swimLoop fuel s k).ParentOrdered := by
  intro fuel
  induction fuel with
  | zero =>
    intro s k _ hk _ hf _ _
    exact absurd hf (by simp; omega)
  | succ n ih =>
    intro s k hS hk hk1 hf hB hD
    rw [swimLoop_succ]
    split_ifs with hc
    · have hk2 : 1 < k := hc.1
      have hlt := hc.2
      rw [parent_eq k (by omega)] at hlt ⊢
      have hq : 1 ≤ k / 2 ∧ k / 2 ≤ s.size_ ∧ k / 2 < k := by omega
      have key : ∀ p, (s.swapSlots k (k / 2)).keyAt p = s.keyAt (exch k (k / 2) p) :=
        fun p => keyAt_swapSlots hS k (k / 2) p hk hk1 hq.1 hq.2.1
      apply ih _ _ (slots_swapSlots hS k (k / 2) hk hk1 hq.1 hq.2.1) hq.1
      · rw [swapSlots_size]
        exact hq.2.1
      · push_cast at hf
        omega
      · constructor
        · intro p hp hp1 hne hne2
          rw [swapSlots_size] at hp1
          rw [key, key, exch_other k (k / 2) p (by omega) hne]
          by_cases h1 : p / 2 = k
          · rw [h1, exch_left]
            have := hB.2 p (by omega) hp1 h1
            exact this
          · rw [exch_other k (k / 2) (p / 2) h1 hne2]
            exact hB.1 p hp hp1 (by omega) h1
        · intro c hq2 hc1 hcq
          rw [swapSlots_size] at hc1
          rw [key, key, exch_other k (k / 2) (k / 2 / 2) (by omega) (by omega)]
          have hqq := hB.1 (k / 2) hq2 hq.2.1 (by omega) (by omega)
          by_cases h1 : c = k
          · rw [h1, exch_left]
            exact hqq
          · rw [exch_other k (k / 2) c h1 (by omega)]
            have := hB.1 c (by omega) hc1 h1 (by omega)
            rw [hcq] at this
            exact le_trans hqq this
      · intro c hc1 hcq
        rw [swapSlots_size] at hc1
        rw [key, key, exch_right]
        by_cases h1 : c = k
        · rw [h1, exch_left]
          exact le_of_lt hlt
        · rw [exch_other k (k / 2) c h1 (by omega)]
          have := hB.1 c (by omega) hc1 h1 (by omega)
          rw [hcq] at this
          exact le_trans (le_of_lt hlt) this
    · apply ParentOrdered.of_parts hB _ hD
      intro h2 _
      have : ¬ s.keyAt k < s.keyAt (parent k) := fun h => hc ⟨by omega, h⟩
      rw [parent_eq k (by omega)] at this
      exact not_lt.mp this

theorem downOk_of_leaf (s : IndexPriorityQueue T) (k : Int)
    (h : s.size_ < 2 * k) : s.DownOk k := by
  intro c hc hck
  omega

theorem sinkLoop_ordered {N : Int} :
    ∀ (fuel : Nat) (s : IndexPriorityQueue T) (k : Int), s.Slots N → 1 ≤ k →
      s.size_ - k < (fuel : Int) → s.OrderedBut k → s.UpOk k →
      (sinkLoop fuel s k).ParentOrdered := by
  intro fuel
  induction fuel with
  | zero =>
    intro s k _ hk hf hB hU
    exact ParentOrdered.of_parts hB hU (downOk_of_leaf s k (by simp at hf; omega))
  | succ n ih =>
    intro s k hS hk hf hB hU
    rw [sinkLoop_succ]
    unfold leftChild
    split_ifs with hc hle
    · apply ParentOrdered.of_parts hB hU
      intro c hc1 hck
      exact le_trans hle (childOf_le s k c hc1 (by omega))
    · have hj := childOf_cases s k
      have hlt : s.keyAt (s.childOf k) < s.keyAt k := not_le.mp hle
      have hsib := fun c hc1 hck => childOf_le s k c hc1 hck
      generalize s.childOf k = j at hj hlt hle hsib ⊢
      have hj1 : 1 ≤ j ∧ j ≤ s.size_ ∧ j / 2 = k ∧ k < j := by omega
      have hk1 : k ≤ s.size_ := by omega
      have key : ∀ p, (s.swapSlots k j).keyAt p = s.keyAt (exch k j p) :=
        fun p => keyAt_swapSlots hS k j p hk hk1 hj1.1 hj1.2.1
      apply ih _ _ (slots_swapSlots hS k j hk hk1 hj1.1 hj1.2.1) hj1.1
      · rw [swapSlots_size]
        push_cast at hf
        omega
      · constructor
        · intro p hp hp1 hne hne2
          rw [swapSlots_size] at hp1
          rw [key, key]
          by_cases h1 : p = k
          · rw [h1, exch_left, exch_other k j (k / 2) (by omega) (by omega)]
            exact hB.2 j (by omega) hj1.2.1 hj1.2.2.1
          · rw [exch_other k j p h1 hne]
            by_cases h2 : p / 2 = k
            · rw [h2, exch_left]
              exact hsib p hp1 (by omega)
            · rw [exch_other k j (p / 2) h2 hne2]
              exact hB.1 p hp hp1 h1 h2
        · intro c hj2 hc1 hcj
          rw [swapSlots_size] at hc1
          rw [key, key, hj1.2.2.1, exch_left, exch_other k j c (by omega) (by omega)]
          have := hB.1 c (by omega) hc1 (by omega) (by omega)
          rwa [hcj] at this
      · intro _ _
        rw [key, key, hj1.2.2.1, exch_left, exch_right]
        exact le_of_lt hlt
    · exact ParentOrdered.of_parts hB hU (downOk_of_leaf s k (by omega))

/-! ## The fuel never cuts a loop short -/

theorem swimLoop_fuel :
    ∀ (n m : Nat) (s : IndexPriorityQueue T) (k : Int), k ≤ (n : Int) → n ≤ m →
      swimLoop m s k = swimLoop n s k := by
  intro n
  induction n with
  | zero =>
    intro m s k hk _
    cases m with
    | zero => rfl
    | succ m =>
      rw [swimLoop_succ, if_neg (fun h => by simp at hk; omega)]
      rfl
  | succ n ih =>
    intro m s k hk hm
    cases m with
    | zero => omega
    | succ m =>
      rw [swimLoop_succ, swimLoop_succ]
      split_ifs with hc
      · apply ih
        · rw [parent_eq k (by omega)]
          push_cast at hk
          omega
        · omega
      · rfl

theorem sinkLoop_fuel :
    ∀ (n m : Nat) (s : IndexPriorityQueue T) (k : Int), 0 ≤ k → s.size_ - k < (n : Int) →
      n ≤ m → sinkLoop m s k = sinkLoop n s k := by
  intro n
  induction n with
  | zero =>
    intro m s k hk hf _
    cases m with
    | zero => rfl
    | succ m =>
      rw [sinkLoop_succ, if_neg (by unfold leftChild; simp at hf; omega)]
      rfl
  | succ n ih =>
    intro m s k hk hf hm
    cases m with
    | zero => omega
    | succ m =>
      rw [sinkLoop_succ, sinkLoop_succ]
      split_ifs with hc hle
      · rfl
      · have hj := childOf_cases s k
        have hne : s.childOf k ≠ k := by
          intro h
          rw [h] at hle
          exact hle (le_refl _)
        apply ih
        · omega
        · rw [swapSlots_size]
          push_cast at hf
          omega
        · omega
      · rfl

/-! ## What `swim` and `sink` deliver -/

theorem SameContent.refl (s : IndexPriorityQueue T) : SameContent s s :=
  ⟨rfl, rfl, fun _ => Iff.rfl⟩

theorem keeps_step {N : Int} (s0 : IndexPriorityQueue T) :
    ∀ (s : IndexPriorityQueue T) (a b : Int), s.Slots N →
      (SameContent s0 s ∧ (s0.Inverse N → s.Inverse N)) →
      1 ≤ a → a ≤ s.size_ → 1 ≤ b → b ≤ s.size_ →
      (SameContent s0 (s.swapSlots a b) ∧ (s0.Inverse N → (s.swapSlots a b).Inverse N)) := by
  intro s a b hS hP ha ha1 hb hb1
  refine ⟨⟨hP.1.priorities_eq, hP.1.size_eq, ?_⟩, ?_⟩
  · intro i
    rw [held_swapSlots hS a b i ha ha1 hb hb1]
    exact hP.1.held_iff i
  · intro h0
    exact inverse_swapSlots hS (hP.2 h0) a b ha ha1 hb hb1

theorem swim_spec {N : Int} (s : IndexPriorityQueue T) (k : Int) (hS : s.Slots N)
    (hk : 1 ≤ k) (hk1 : k ≤ s.size_) (hB : s.OrderedBut k) (hD : s.DownOk k) :
    (s.swim k).Slots N ∧ SameContent s (s.swim k) ∧
      (s.Inverse N → (s.swim k).Inverse N) ∧ (s.swim k).HeapOrdered := by
  have h1 := swimLoop_keeps _ (keeps_step s) k.toNat s k hS
    ⟨SameContent.refl s, fun h => h⟩ hk1
  have h2 := swimLoop_ordered k.toNat s k hS hk hk1 (by omega) hB hD
  exact ⟨h1.1, h1.2.1, h1.2.2, (heapOrdered_iff _).2 h2⟩

theorem sink_spec {N : Int} (s : IndexPriorityQueue T) (k : Int) (hS : s.Slots N)
    (hk : 1 ≤ k) (hB : s.OrderedBut k) (hU : s.UpOk k) :
    (s.sink k).Slots N ∧ SameContent s (s.sink k) ∧
      (s.Inverse N → (s.sink k).Inverse N) ∧ (s.sink k).HeapOrdered := by
  have h0 := hS.size_nonneg
  have h1 := sinkLoop_keeps _ (keeps_step s) (s.size_.toNat + 1) s k hS
    ⟨SameContent.refl s, fun h => h⟩ hk
  have h2 := sinkLoop_ordered (s.size_.toNat + 1) s k hS hk (by push_cast; omega) hB hU
  exact ⟨h1.1, h1.2.1, h1.2.2, (heapOrdered_iff _).2 h2⟩

theorem swim_noop (s : IndexPriorityQueue T) (k : Int)
    (h : ¬ (k > 1 ∧ s.keyAt k < s.keyAt (parent k))) : s.swim k = s := by
  unfold swim
  cases k.toNat with
  | zero => rfl
  | succ n => rw [swimLoop_succ, if_neg h]

theorem sink_noop (s : IndexPriorityQueue T) (k : Int) (hk : 1 ≤ k)
    (h : s.ParentOrdered) : s.sink k = s := by
  unfold sink
  rw [sinkLoop_succ]
  unfold leftChild
  split_ifs with hc hle
  · rfl
  · exfalso
    apply hle
    have hj := childOf_cases s k
    have := h (s.childOf k) (by omega) (by omega)
    rwa [show s.childOf k / 2 = k by omega] at this
  · rfl

theorem restore_spec {N : Int} (s : IndexPriorityQueue T) (k : Int) (hS : s.Slots N)
    (hk : 1 ≤ k) (hk1 : k ≤ s.size_) (hB : s.OrderedBut k) :
    ((s.swim k).sink k).Slots N ∧ SameContent s ((s.swim k).sink k) ∧
      (s.Inverse N → ((s.swim k).sink k).Inverse N) ∧ ((s.swim k).sink k).HeapOrdered := by
  by_cases hc : k > 1 ∧ s.keyAt k < s.keyAt (parent k)
  · have hlt := hc.2
    rw [parent_eq k (by omega)] at hlt
    have hD : s.DownOk k := by
      intro c hc1 hck
      exact le_trans (le_of_lt hlt) (hB.2 c (by omega) hc1 hck)
    have h := swim_spec s k hS hk hk1 hB hD
    rw [sink_noop _ k hk ((heapOrdered_iff _).1 h.2.2.2)]
    exact h
  · rw [swim_noop s k hc]
    apply sink_spec s k hS hk hB
    intro h2 _
    have : ¬ s.keyAt k < s.keyAt (parent k) := fun h => hc ⟨by omega, h⟩
    rw [parent_eq k (by omega)] at this
    exact not_lt.mp this

theorem root_le {s : IndexPriorityQueue T} (h : s.ParentOrdered) :
    ∀ (n : Nat) (p : Int), p ≤ (n : Int) → 1 ≤ p → p ≤ s.size_ → s.keyAt 1 ≤ s.keyAt p := by
  intro n
  induction n with
  | zero =>
    intro p hp hp1 _
    simp at hp
    omega
  | succ n ih =>
    intro p hp hp1 hp2
    by_cases h1 : p = 1
    · rw [h1]
    · push_cast at hp
      exact le_trans (ih (p / 2) (by omega) (by omega) (by omega)) (h p (by omega) hp2)

/-! ## The executable checks are sound -/

theorem allFrom1_spec (n : Int) (f : Int → Bool) (h : allFrom1 n f = true) :
    ∀ p, 1 ≤ p → p ≤ n → f p = true := by
  intro p hp hp1
  unfold allFrom1 at h
  rw [List.all_eq_true] at h
  have := h (p - 1).toNat (by rw [List.mem_range]; omega)
  rwa [show (((p - 1).toNat : Nat) : Int) + 1 = p by omega] at this

theorem allFrom0_spec (n : Int) (f : Int → Bool) (h : allFrom0 n f = true) :
    ∀ i, 0 ≤ i → i < n → f i = true := by
  intro i hi hi1
  unfold allFrom0 at h
  rw [List.all_eq_true] at h
  have := h i.toNat (by rw [List.mem_range]; omega)
  rwa [show ((i.toNat : Nat) : Int) = i by omega] at this

theorem slots_of_check (s : IndexPriorityQueue T) (N : Int) (h : s.slotsB N = true) :
    s.Slots N := by
  unfold slotsB at h
  simp only [Bool.and_eq_true, decide_eq_true_eq] at h
  obtain ⟨⟨⟨⟨⟨h1, h2⟩, h3⟩, h4⟩, h5⟩, h6⟩ := h
  refine ⟨h1, h2, h3, h4, ?_, ?_⟩
  · intro p hp hp1
    have := allFrom1_spec _ _ h5 p hp hp1
    simpa using this
  · intro p q hp hp1 hq hq1
    have := allFrom1_spec _ _ (allFrom1_spec _ _ h6 p hp hp1) q hq hq1
    exact of_decide_eq_true this

theorem inverse_of_check (s : IndexPriorityQueue T) (N : Int) (h : s.inverseB N = true) :
    s.Inverse N := by
  unfold inverseB at h
  simp only [Bool.and_eq_true, decide_eq_true_eq] at h
  obtain ⟨⟨h1, h2⟩, h3⟩ := h
  apply Inverse.of_slots h1
  · intro p hp hp1
    have := allFrom1_spec _ _ h2 p hp hp1
    simpa using this
  · intro i hi hi1 hh
    have := allFrom0_spec _ _ h3 i hi hi1
    simp only [Bool.or_eq_true, Bool.and_eq_true, decide_eq_true_eq] at this
    rcases this with h4 | ⟨⟨h4, h5⟩, h6⟩
    · exact h4
    · exact absurd ⟨_, h4, h5, h6⟩ hh

theorem heapOrdered_of_check (s : IndexPriorityQueue T) (h : s.heapOrderedB = true) :
    s.HeapOrdered := by
  rw [heapOrdered_iff]
  intro p hp hp1
  have := allFrom1_spec _ _ h p (by omega) hp1
  simp only [decide_eq_true_eq] at this
  exact this hp

theorem wellFormed_of_check (s : IndexPriorityQueue T) (N : Int)
    (h : s.wellFormedB N = true) : s.WellFormed N := by
  unfold wellFormedB at h
  simp only [Bool.and_eq_true] at h
  exact ⟨slots_of_check s N h.1.1, inverse_of_check s N h.1.2, heapOrdered_of_check s h.2⟩

/-! ## Counting the slots -/

theorem size_lt_of_absent {N : Int} {s : IndexPriorityQueue T} (hS : s.Slots N) (i : Int)
    (hi : 0 ≤ i) (hi1 : i < N) (hH : ¬ s.Held i) : s.size_ < N := by
  by_contra hge
  have hsz : s.size_ = N := le_antisymm hS.size_le (not_lt.mp hge)
  have hcard : (Finset.Icc (1 : Int) N).card ≤ ((Finset.Ico (0 : Int) N).erase i).card := by
    apply Finset.card_le_card_of_injOn s.pqAt
    · intro p hp
      rw [Finset.mem_Icc] at hp
      have hr := hS.inRange p hp.1 (by omega)
      rw [Finset.mem_erase, Finset.mem_Ico]
      exact ⟨fun h => hH ⟨p, hp.1, by omega, h⟩, hr⟩
    · intro p hp q hq h
      rw [Finset.mem_coe, Finset.mem_Icc] at hp hq
      exact hS.distinct p q hp.1 (by omega) hq.1 (by omega) h
  rw [Finset.card_erase_of_mem (by rw [Finset.mem_Ico]; exact ⟨hi, hi1⟩), Int.card_Icc,
    Int.card_Ico] at hcard
  omega

/-! ## `push` -/

theorem push_eq (s : IndexPriorityQueue T) (p : T) (i : Int) (hc : s.contains i = false) :
    s.push p i = swim
      { priorities := vset s.priorities i p
        priorityQueue := vset s.priorityQueue (s.size_ + 1) i
        indexToPosition := vset s.indexToPosition i (s.size_ + 1)
        size_ := s.size_ + 1 } (s.size_ + 1) := by
  unfold push
  rw [if_neg (by simp [hc])]

theorem push_core {N : Int} (s : IndexPriorityQueue T) (hW : s.WellFormed N) (i : Int)
    (hi : 0 ≤ i) (hi1 : i < N) (hH : ¬ s.Held i) (p : T) (s4 : IndexPriorityQueue T)
    (h4 : s4 = { priorities := vset s.priorities i p
                 priorityQueue := vset s.priorityQueue (s.size_ + 1) i
                 indexToPosition := vset s.indexToPosition i (s.size_ + 1)
                 size_ := s.size_ + 1 }) :
    s4.Slots N ∧ s4.Inverse N ∧ s4.OrderedBut (s.size_ + 1) ∧
      (∀ j, s4.Held j ↔ s.Held j ∨ j = i) ∧ s4.prioAt i = p ∧
      (∀ j, j ≠ i → s4.prioAt j = s.prioAt j) := by
  have hS := hW.slots
  have hI := hW.inverse
  have hlt := size_lt_of_absent hS i hi hi1 hH
  have h0 := hS.size_nonneg
  have hsz : s4.size_ = s.size_ + 1 := by rw [h4]
  have hpq : ∀ q, s4.pqAt q = if q = s.size_ + 1 then i else s.pqAt q := by
    intro q
    rw [h4]
    exact vget_vset 0 s.priorityQueue (s.size_ + 1) q i (by omega)
      (by have := hS.len_priorityQueue; omega)
  have hpr : ∀ j, s4.prioAt j = if j = i then p else s.prioAt j := by
    intro j
    rw [h4]
    exact vget_vset default s.priorities i j p hi (by have := hS.len_priorities; omega)
  have hpos : ∀ j, s4.posAt j = if j = i then s.size_ + 1 else s.posAt j := by
    intro j
    rw [h4]
    exact vget_vset 0 s.indexToPosition i j (s.size_ + 1) hi
      (by have := hI.len_indexToPosition; omega)
  have hold : ∀ q, 1 ≤ q → q ≤ s.size_ → s4.pqAt q = s.pqAt q ∧ s.pqAt q ≠ i := by
    intro q hq hq1
    rw [hpq, if_neg (by omega)]
    exact ⟨rfl, fun h => hH ⟨q, hq, hq1, h⟩⟩
  have hkey : ∀ q, 1 ≤ q → q ≤ s.size_ → s4.keyAt q = s.keyAt q := by
    intro q hq hq1
    unfold keyAt
    rw [(hold q hq hq1).1, hpr, if_neg (hold q hq hq1).2]
  have hheld : ∀ j, s4.Held j ↔ s.Held j ∨ j = i := by
    intro j
    constructor
    · rintro ⟨q, hq, hq1, hq2⟩
      rw [hsz] at hq1
      by_cases hlast : q = s.size_ + 1
      · rw [hpq, if_pos hlast] at hq2
        exact Or.inr hq2.symm
      · rw [(hold q hq (by omega)).1] at hq2
        exact Or.inl ⟨q, hq, by omega, hq2⟩
    · rintro (⟨q, hq, hq1, hq2⟩ | rfl)
      · exact ⟨q, hq, by omega, by rw [(hold q hq hq1).1]; exact hq2⟩
      · exact ⟨s.size_ + 1, by omega, by omega, by rw [hpq, if_pos rfl]⟩
  refine ⟨⟨?_, ?_, by omega, by omega, ?_, ?_⟩, ?_, ?_, hheld, ?_, ?_⟩
  · rw [h4]
    simpa [length_vset] using hS.len_priorities
  · rw [h4]
    simpa [length_vset] using hS.len_priorityQueue
  · intro q hq hq1
    rw [hsz] at hq1
    by_cases hlast : q = s.size_ + 1
    · rw [hpq, if_pos hlast]
      exact ⟨hi, hi1⟩
    · rw [(hold q hq (by omega)).1]
      exact hS.inRange q hq (by omega)
  · intro q r hq hq1 hr hr1 h
    rw [hsz] at hq1 hr1
    by_cases hq2 : q = s.size_ + 1 <;> by_cases hr2 : r = s.size_ + 1
    · omega
    · rw [hpq q, if_pos hq2, (hold r hr (by omega)).1] at h
      exact absurd h.symm (hold r hr (by omega)).2
    · rw [hpq r, if_pos hr2, (hold q hq (by omega)).1] at h
      exact absurd h (hold q hq (by omega)).2
    · rw [(hold q hq (by omega)).1, (hold r hr (by omega)).1] at h
      exact hS.distinct q r hq (by omega) hr (by omega) h
  · apply Inverse.of_slots
    · rw [h4]
      simpa [length_vset] using hI.len_indexToPosition
    · intro q hq hq1
      rw [hsz] at hq1
      by_cases hlast : q = s.size_ + 1
      · rw [hpq, if_pos hlast, hpos, if_pos rfl, hlast]
      · rw [(hold q hq (by omega)).1, hpos, if_neg (hold q hq (by omega)).2]
        exact hI.pos_pqAt hS q hq (by omega)
    · intro j hj hj1 hh
      rw [hheld] at hh
      rw [hpos, if_neg (fun h => hh (Or.inr h))]
      exact hI.absent j hj hj1 (fun h => hh (Or.inl h))
  · have hP := (heapOrdered_iff s).1 hW.ordered
    constructor
    · intro q hq hq1 hne _
      rw [hsz] at hq1
      rw [hkey q (by omega) (by omega), hkey (q / 2) (by omega) (by omega)]
      exact hP q hq (by omega)
    · intro c _ hc hck
      rw [hsz] at hc
      omega
  · rw [hpr, if_pos rfl]
  · intro j hj
    rw [hpr, if_neg hj]

/-- C6. `push` postcondition: in a well-formed state of capacity `N`, for an
index `i` of `[0, N)` that `contains` reports absent and any priority `p`,
the state after `push(p, i)` is well-formed again, `contains(i)` is true,
`priorities[i] = p`, `size()` is one more, and every index that was present
is still present with the priority it had. -/
theorem push_postcondition {N : Int} (s : IndexPriorityQueue T) (hW : s.WellFormed N)
    (i : Int) (hi : 0 ≤ i) (hi1 : i < N) (hc : s.contains i = false) (p : T) :
    (s.push p i).WellFormed N ∧ (s.push p i).contains i = true ∧
      (s.push p i).prioAt i = p ∧ (s.push p i).size = s.size + 1 ∧
      ∀ j, s.contains j = true →
        (s.push p i).contains j = true ∧ (s.push p i).prioAt j = s.prioAt j := by
  have hH : ¬ s.Held i := by
    rw [← contains_iff_held hW.slots hW.inverse, hc]
    simp
  rw [push_eq s p i hc]
  obtain ⟨hS4, hI4, hB4, hheld, hpi, hpj⟩ := push_core s hW i hi hi1 hH p _ rfl
  generalize hs4 : ({ priorities := vset s.priorities i p
                      priorityQueue := vset s.priorityQueue (s.size_ + 1) i
                      indexToPosition := vset s.indexToPosition i (s.size_ + 1)
                      size_ := s.size_ + 1 } : IndexPriorityQueue T) = s4
    at hS4 hI4 hB4 hheld hpi hpj ⊢
  have hsz : s4.size_ = s.size_ + 1 := by rw [← hs4]
  have h0 := hW.slots.size_nonneg
  obtain ⟨hS, hC, hI, hO⟩ := swim_spec s4 (s.size_ + 1) hS4 (by omega) (by omega) hB4
    (downOk_of_leaf s4 _ (by omega))
  have hI5 := hI hI4
  have hprio : ∀ j, (s4.swim (s.size_ + 1)).prioAt j = s4.prioAt j := by
    intro j
    unfold prioAt
    rw [hC.priorities_eq]
  refine ⟨⟨hS, hI5, hO⟩, ?_, ?_, ?_, ?_⟩
  · rw [contains_iff_held hS hI5, hC.held_iff, hheld]
    exact Or.inr rfl
  · rw [hprio, hpi]
  · unfold size
    rw [hC.size_eq, hsz]
  · intro j hj
    rw [contains_iff_held hW.slots hW.inverse] at hj
    constructor
    · rw [contains_iff_held hS hI5, hC.held_iff, hheld]
      exact Or.inl hj
    · rw [hprio, hpj j (fun h => hH (h ▸ hj))]

/-! ## Removing a slot: the first lines of `pop` and `erase` -/

theorem removeSlot_core {N : Int} (s t : IndexPriorityQueue T) (hS : s.Slots N) (pos : Int)
    (hp : 1 ≤ pos) (hp1 : pos ≤ s.size_)
    (hpq : t.priorityQueue = vswap 0 s.priorityQueue pos s.size_)
    (hpr : t.priorities = s.priorities) (hsz : t.size_ = s.size_ - 1) :
    t.Slots N ∧ (∀ q, t.pqAt q = s.pqAt (exch pos s.size_ q)) ∧
      (∀ q, t.keyAt q = s.keyAt (exch pos s.size_ q)) ∧
      (∀ j, t.Held j ↔ s.Held j ∧ j ≠ s.pqAt pos) ∧
      (pos < s.size_ → s.ParentOrdered → t.OrderedBut pos) ∧
      (pos = s.size_ → s.ParentOrdered → t.ParentOrdered) := by
  have hlen := hS.len_priorityQueue
  have hle := hS.size_le
  have hq : ∀ q, t.pqAt q = s.pqAt (exch pos s.size_ q) := by
    intro q
    unfold pqAt
    rw [hpq]
    exact vget_vswap 0 s.priorityQueue pos s.size_ q (by omega) (by omega) (by omega) (by omega)
  have hk : ∀ q, t.keyAt q = s.keyAt (exch pos s.size_ q) := by
    intro q
    unfold keyAt prioAt
    rw [hq, hpr]
  have hx : ∀ q, 1 ≤ q → q ≤ s.size_ - 1 →
      1 ≤ exch pos s.size_ q ∧ exch pos s.size_ q ≤ s.size_ ∧ exch pos s.size_ q ≠ pos := by
    intro q h1 h2
    unfold exch
    split_ifs <;> omega
  have hsame : ∀ q, q ≠ pos → q ≠ s.size_ → exch pos s.size_ q = q :=
    fun q h1 h2 => exch_other _ _ q h1 h2
  refine ⟨⟨?_, ?_, by omega, by omega, ?_, ?_⟩, hq, hk, ?_, ?_, ?_⟩
  · rw [hpr]
    exact hS.len_priorities
  · rw [hpq, length_vswap]
    exact hlen
  · intro q h1 h2
    rw [hsz] at h2
    rw [hq]
    exact hS.inRange _ (hx q h1 h2).1 (hx q h1 h2).2.1
  · intro q r h1 h2 h3 h4 h
    rw [hsz] at h2 h4
    rw [hq, hq] at h
    have := hS.distinct _ _ (hx q h1 h2).1 (hx q h1 h2).2.1 (hx r h3 h4).1 (hx r h3 h4).2.1 h
    have h5 := congrArg (exch pos s.size_) this
    rwa [exch_exch, exch_exch] at h5
  · intro j
    constructor
    · rintro ⟨q, h1, h2, h3⟩
      rw [hsz] at h2
      rw [hq] at h3
      refine ⟨⟨_, (hx q h1 h2).1, (hx q h1 h2).2.1, h3⟩, ?_⟩
      intro h
      rw [h] at h3
      exact (hx q h1 h2).2.2 (hS.distinct _ _ (hx q h1 h2).1 (hx q h1 h2).2.1 hp hp1 h3)
    · rintro ⟨⟨q, h1, h2, h3⟩, hne⟩
      have hqp : q ≠ pos := fun h => hne (by rw [← h3, h])
      by_cases hlast : q = s.size_
      · refine ⟨pos, hp, by omega, ?_⟩
        rw [hq, exch_left, ← hlast]
        exact h3
      · refine ⟨q, h1, by omega, ?_⟩
        rw [hq, hsame q hqp hlast]
        exact h3
  · intro hlt hP
    constructor
    · intro q h1 h2 h3 h4
      rw [hsz] at h2
      rw [hk, hk, hsame q h3 (by omega), hsame (q / 2) h4 (by omega)]
      exact hP q h1 (by omega)
    · intro c h1 h2 h3
      rw [hsz] at h2
      rw [hk, hk, hsame c (by omega) (by omega), hsame (pos / 2) (by omega) (by omega)]
      have h5 := hP pos h1 hp1
      have h6 := hP c (by omega) (by omega)
      rw [h3] at h6
      exact le_trans h5 h6
  · intro heq hP q h1 h2
    rw [hsz] at h2
    rw [hk, hk, hsame q (by omega) (by omega), hsame (q / 2) (by omega) (by omega)]
    exact hP q h1 (by omega)

/-! ## `pop` -/

theorem pop_eq (s : IndexPriorityQueue T) (hne : s.empty = false) :
    s.pop = sink
      { priorities := s.priorities
        priorityQueue := vswap 0 s.priorityQueue 1 s.size_
        indexToPosition :=
          vset s.indexToPosition (vget 0 (vswap 0 s.priorityQueue 1 s.size_) 1) (-1)
        size_ := s.size_ - 1 } 1 := by
  unfold pop
  rw [if_neg (by simp [hne])]
  rfl

theorem size_pos_of_nonempty {N : Int} (s : IndexPriorityQueue T) (hS : s.Slots N)
    (hne : s.empty = false) : 1 ≤ s.size_ := by
  have h0 := hS.size_nonneg
  unfold empty at hne
  have : s.size_ ≠ 0 := by simpa using hne
  omega

/-- C9. `pop` removes the minimum from the heap: in a non-empty state whose
heap slots `1..size` hold distinct in-range indices in heap order, the index
at slot 1 has a priority at most that of every held index, and after `pop()`
the size is one less, the heap slots `1..size-1` hold distinct in-range
indices that are exactly the indices held before except the one formerly at
slot 1, the priorities vector is unchanged and heap order holds. -/
theorem pop_removes_minimum {N : Int} (s : IndexPriorityQueue T) (hS : s.Slots N)
    (hO : s.HeapOrdered) (hne : s.empty = false) :
    (∀ j, s.Held j → s.prioAt (s.pqAt 1) ≤ s.prioAt j) ∧
      s.pop.size_ = s.size_ - 1 ∧ s.pop.Slots N ∧
      (∀ j, s.pop.Held j ↔ s.Held j ∧ j ≠ s.pqAt 1) ∧
      s.pop.priorities = s.priorities ∧ s.pop.HeapOrdered := by
  have h1 := size_pos_of_nonempty s hS hne
  have hP := (heapOrdered_iff s).1 hO
  constructor
  · rintro j ⟨q, hq, hq1, rfl⟩
    exact root_le hP q.toNat q (by omega) hq hq1
  · rw [pop_eq s hne]
    generalize hs3 : ({ priorities := s.priorities
                        priorityQueue := vswap 0 s.priorityQueue 1 s.size_
                        indexToPosition :=
                          vset s.indexToPosition (vget 0 (vswap 0 s.priorityQueue 1 s.size_) 1) (-1)
                        size_ := s.size_ - 1 } : IndexPriorityQueue T) = s3
    have hpq : s3.priorityQueue = vswap 0 s.priorityQueue 1 s.size_ := by rw [← hs3]
    have hpr : s3.priorities = s.priorities := by rw [← hs3]
    have hsz : s3.size_ = s.size_ - 1 := by rw [← hs3]
    obtain ⟨hS3, -, -, hheld, hlt, heq⟩ :=
      removeSlot_core s s3 hS 1 (le_refl 1) h1 hpq hpr hsz
    have hB : s3.OrderedBut 1 := by
      by_cases h : 1 < s.size_
      · exact hlt h hP
      · exact (heq (by omega) hP).orderedBut 1
    obtain ⟨hS4, hC, -, hO4⟩ := sink_spec s3 1 hS3 (le_refl 1) hB (fun h => absurd h (by decide))
    refine ⟨by rw [hC.size_eq, hsz], hS4, ?_, by rw [hC.priorities_eq, hpr], hO4⟩
    intro j
    rw [hC.held_iff, hheld]

/-! ## `erase` -/

theorem erase_eq (s : IndexPriorityQueue T) (i : Int) (hc : s.contains i = true) :
    s.erase i = sink (swim
      { priorities := s.priorities
        priorityQueue := vswap 0 s.priorityQueue (s.posAt i) s.size_
        indexToPosition :=
          vset (vset s.indexToPosition
            (vget 0 (vswap 0 s.priorityQueue (s.posAt i) s.size_) (s.posAt i)) (s.posAt i))
            i (-1)
        size_ := s.size_ - 1 } (s.posAt i)) (s.posAt i) := by
  unfold erase
  rw [if_neg (by simp [hc])]
  rfl

theorem held_position {N : Int} (s : IndexPriorityQueue T) (hW : s.WellFormed N) (i : Int)
    (hc : s.contains i = true) :
    1 ≤ s.posAt i ∧ s.posAt i ≤ s.size_ ∧ s.pqAt (s.posAt i) = i ∧ 0 ≤ i ∧ i < N := by
  obtain ⟨q, hq, hq1, hq2⟩ := (contains_iff_held hW.slots hW.inverse i).1 hc
  have := hW.inverse.pos_pqAt hW.slots q hq hq1
  rw [hq2] at this
  have hr := hW.slots.inRange q hq hq1
  rw [hq2] at hr
  rw [this]
  exact ⟨hq, hq1, hq2, hr.1, hr.2⟩

/-- C8. `erase` postcondition: in a well-formed state of capacity `N`, for an
index `i` that `contains` reports present (at whatever heap position), the
state after `erase(i)` is well-formed again, `contains(i)` is false,
`size()` is one less, and every other index that was present is still
present with the priority it had. -/
theorem erase_postcondition {N : Int} (s : IndexPriorityQueue T) (hW : s.WellFormed N)
    (i : Int) (hc : s.contains i = true) :
    (s.erase i).WellFormed N ∧ (s.erase i).contains i = false ∧
      (s.erase i).size = s.size - 1 ∧
      ∀ j, j ≠ i → s.contains j = true →
        (s.erase i).contains j = true ∧ (s.erase i).prioAt j = s.prioAt j := by
  have hS := hW.slots
  have hI := hW.inverse
  have hP := (heapOrdered_iff s).1 hW.ordered
  obtain ⟨hp, hp1, hpi, hi, hi1⟩ := held_position s hW i hc
  rw [erase_eq s i hc]
  generalize hpos : s.posAt i = pos at hp hp1 hpi ⊢
  generalize hs4 : ({ priorities := s.priorities
                      priorityQueue := vswap 0 s.priorityQueue pos s.size_
                      indexToPosition :=
                        vset (vset s.indexToPosition
                          (vget 0 (vswap 0 s.priorityQueue pos s.size_) pos) pos) i (-1)
                      size_ := s.size_ - 1 } : IndexPriorityQueue T) = s4
  have hpq : s4.priorityQueue = vswap 0 s.priorityQueue pos s.size_ := by rw [← hs4]
  have hpr : s4.priorities = s.priorities := by rw [← hs4]
  have hsz : s4.size_ = s.size_ - 1 := by rw [← hs4]
  have hitp : s4.indexToPosition =
      vset (vset s.indexToPosition (s4.pqAt pos) pos) i (-1) := by rw [← hs4]; rfl
  obtain ⟨hS4, hq, hk, hheld, hlt, heq⟩ := removeSlot_core s s4 hS pos hp hp1 hpq hpr hsz
  have hm : s4.pqAt pos = s.pqAt s.size_ := by rw [hq, exch_left]
  have hmr := hS.inRange s.size_ (by omega) (le_refl _)
  have hlen := hI.len_indexToPosition
  have hposAt : ∀ j, s4.posAt j =
      if j = i then -1 else if j = s.pqAt s.size_ then pos else s.posAt j := by
    intro j
    unfold posAt
    rw [hitp, hm, vget_vset 0 _ i j (-1) hi (by rw [length_vset]; omega),
      vget_vset 0 _ (s.pqAt s.size_) j pos hmr.1 (by omega)]
  have hI4 : s4.Inverse N := by
    apply Inverse.of_slots
    · rw [hitp, length_vset, length_vset]
      exact hlen
    · intro q h1 h2
      have hh : s4.Held (s4.pqAt q) := ⟨q, h1, h2, rfl⟩
      rw [hheld, hpi] at hh
      rw [hsz] at h2
      rw [hposAt, if_neg hh.2]
      by_cases hqp : q = pos
      · rw [hqp, hm, if_pos rfl]
      · have hx : exch pos s.size_ q = q := exch_other _ _ q hqp (by omega)
        rw [hq, hx, if_neg (fun h => by
          have := hS.distinct q s.size_ h1 (by omega) (by omega) (le_refl _) h
          omega)]
        exact hI.pos_pqAt hS q h1 (by omega)
    · intro j hj hj1 hh
      rw [hheld, hpi] at hh
      rw [hposAt]
      by_cases hji : j = i
      · rw [if_pos hji]
      · have hnh : ¬ s.Held j := fun h => hh ⟨h, hji⟩
        rw [if_neg hji, if_neg (fun h => hnh ⟨s.size_, by omega, le_refl _, h.symm⟩)]
        exact hI.absent j hj hj1 hnh
  have hres : ((s4.swim pos).sink pos).Slots N ∧ SameContent s4 ((s4.swim pos).sink pos) ∧
      ((s4.swim pos).sink pos).Inverse N ∧ ((s4.swim pos).sink pos).HeapOrdered := by
    by_cases hlast : pos = s.size_
    · have hP4 := heq hlast hP
      have hno : ¬ (pos > 1 ∧ s4.keyAt pos < s4.keyAt (parent pos)) := by
        rintro ⟨h1, h2⟩
        rw [parent_eq pos (by omega), hk, hk, hlast, exch_left,
          exch_other _ _ (s.size_ / 2) (by omega) (by omega)] at h2
        exact absurd (hP s.size_ (by omega) (le_refl _)) (not_le.mpr h2)
      rw [swim_noop s4 pos hno, sink_noop s4 pos hp hP4]
      exact ⟨hS4, SameContent.refl s4, hI4, (heapOrdered_iff s4).2 hP4⟩
    · have hB := hlt (by omega) hP
      obtain ⟨h1, h2, h3, h4⟩ := restore_spec s4 pos hS4 hp (by omega) hB
      exact ⟨h1, h2, h3 hI4, h4⟩
  obtain ⟨hSr, hC, hIr, hOr⟩ := hres
  refine ⟨⟨hSr, hIr, hOr⟩, ?_, ?_, ?_⟩
  · have : ¬ ((s4.swim pos).sink pos).Held i := by
      rw [hC.held_iff, hheld, hpi]
      exact fun h => h.2 rfl
    rw [← contains_iff_held hSr hIr] at this
    simpa using this
  · unfold size
    rw [hC.size_eq, hsz]
  · intro j hj hcj
    rw [contains_iff_held hS hI] at hcj
    constructor
    · rw [contains_iff_held hSr hIr, hC.held_iff, hheld, hpi]
      exact ⟨hcj, hj⟩
    · unfold prioAt
      rw [hC.priorities_eq, hpr]

/-! ## `changeKey` -/

theorem changeKey_eq (s : IndexPriorityQueue T) (k : T) (i : Int) (hc : s.contains i = true) :
    s.changeKey k i = sink (swim
      { priorities := vset s.priorities i k
        priorityQueue := s.priorityQueue
        indexToPosition := s.indexToPosition
        size_ := s.size_ } (s.posAt i)) (s.posAt i) := by
  unfold changeKey
  rw [if_neg (by simp [hc])]
  rfl

/-- C7. `changeKey` postcondition on a present index: in a well-formed state
of capacity `N`, for an index `i` that `contains` reports present and any key
`k`, the state after `changeKey(k, i)` is well-formed again, `contains(i)` is
true, `priorities[i] = k`, `size()` is unchanged, the set of present indices
is unchanged, and every other present index keeps its priority. -/
theorem changeKey_postcondition {N : Int} (s : IndexPriorityQueue T) (hW : s.WellFormed N)
    (i : Int) (hc : s.contains i = true) (k : T) :
    (s.changeKey k i).WellFormed N ∧ (s.changeKey k i).contains i = true ∧
      (s.changeKey k i).prioAt i = k ∧ (s.changeKey k i).size = s.size ∧
      (∀ j, (s.changeKey k i).contains j = s.contains j) ∧
      ∀ j, j ≠ i → s.contains j = true → (s.changeKey k i).prioAt j = s.prioAt j := by
  have hS := hW.slots
  have hI := hW.inverse
  have hP := (heapOrdered_iff s).1 hW.ordered
  obtain ⟨hp, hp1, hpi, hi, hi1⟩ := held_position s hW i hc
  rw [changeKey_eq s k i hc]
  generalize hpos : s.posAt i = pos at hp hp1 hpi ⊢
  generalize hs1 : ({ priorities := vset s.priorities i k
                      priorityQueue := s.priorityQueue
                      indexToPosition := s.indexToPosition
                      size_ := s.size_ } : IndexPriorityQueue T) = s1
  have hpq : ∀ q, s1.pqAt q = s.pqAt q := by intro q; rw [← hs1]; rfl
  have hps : ∀ j, s1.posAt j = s.posAt j := by intro j; rw [← hs1]; rfl
  have hsz : s1.size_ = s.size_ := by rw [← hs1]
  have hpr : ∀ j, s1.prioAt j = if j = i then k else s.prioAt j := by
    intro j
    rw [← hs1]
    exact vget_vset default s.priorities i j k hi (by have := hS.len_priorities; omega)
  have hheld : ∀ j, s1.Held j ↔ s.Held j := by
    intro j
    unfold Held
    simp only [hpq, hsz]
  have hS1 : s1.Slots N := by
    refine ⟨?_, ?_, by rw [hsz]; exact hS.size_nonneg, by rw [hsz]; exact hS.size_le, ?_, ?_⟩
    · rw [← hs1]
      simpa [length_vset] using hS.len_priorities
    · rw [← hs1]
      exact hS.len_priorityQueue
    · intro q h1 h2
      rw [hsz] at h2
      rw [hpq]
      exact hS.inRange q h1 h2
    · intro q r h1 h2 h3 h4 h
      rw [hsz] at h2 h4
      rw [hpq, hpq] at h
      exact hS.distinct q r h1 h2 h3 h4 h
  have hI1 : s1.Inverse N := by
    apply Inverse.of_slots
    · rw [← hs1]
      exact hI.len_indexToPosition
    · intro q h1 h2
      rw [hsz] at h2
      rw [hps, hpq]
      exact hI.pos_pqAt hS q h1 h2
    · intro j hj hj1 hh
      rw [hheld] at hh
      rw [hps]
      exact hI.absent j hj hj1 hh
  have hkey : ∀ q, 1 ≤ q → q ≤ s.size_ → q ≠ pos → s1.keyAt q = s.keyAt q := by
    intro q h1 h2 h3
    unfold keyAt
    rw [hpq, hpr, if_neg]
    intro h
    rw [← hpi] at h
    exact h3 (hS.distinct q pos h1 h2 hp hp1 h)
  have hB : s1.OrderedBut pos := by
    constructor
    · intro q h1 h2 h3 h4
      rw [hsz] at h2
      rw [hkey q (by omega) h2 h3, hkey (q / 2) (by omega) (by omega) h4]
      exact hP q h1 h2
    · intro c h1 h2 h3
      rw [hsz] at h2
      rw [hkey c (by omega) h2 (by omega), hkey (pos / 2) (by omega) (by omega) (by omega)]
      have h5 := hP pos h1 hp1
      have h6 := hP c (by omega) h2
      rw [h3] at h6
      exact le_trans h5 h6
  obtain ⟨hSr, hC, hIr, hOr⟩ := restore_spec s1 pos hS1 hp (by omega) hB
  have hIr1 := hIr hI1
  have hprio : ∀ j, ((s1.swim pos).sink pos).prioAt j = s1.prioAt j := by
    intro j
    unfold prioAt
    rw [hC.priorities_eq]
  have hcont : ∀ j, ((s1.swim pos).sink pos).contains j = s.contains j := by
    intro j
    rw [Bool.eq_iff_iff, contains_iff_held hSr hIr1, contains_iff_held hS hI, hC.held_iff,
      hheld]
  refine ⟨⟨hSr, hIr1, hOr⟩, ?_, ?_, ?_, hcont, ?_⟩
  · rw [hcont, hc]
  · rw [hprio, hpr, if_pos rfl]
  · unfold size
    rw [hC.size_eq, hsz]
  · intro j hj _
    rw [hprio, hpr, if_neg hj]

/-! ## `top` -/

/-- C5. `top` returns the minimum: in a non-empty state in heap order,
`top()` returns a pair `(p, i)` where `i` is held in a heap slot,
`p = priorities[i]` and `p <= priorities[j]` for every index `j` held in the
heap slots `1..size`.  (`top` is a function of the state that returns the
pair only, so it leaves the state as it is.) -/
theorem top_returns_minimum (s : IndexPriorityQueue T) (h0 : 0 ≤ s.size_)
    (hne : s.empty = false) (hO : s.HeapOrdered) :
    s.Held s.top.2 ∧ s.top.1 = s.prioAt s.top.2 ∧
      ∀ j, s.Held j → s.top.1 ≤ s.prioAt j := by
  have h1 : 1 ≤ s.size_ := by
    unfold empty at hne
    have : s.size_ ≠ 0 := by simpa using hne
    omega
  have hP := (heapOrdered_iff s).1 hO
  refine ⟨⟨1, le_refl 1, h1, rfl⟩, rfl, ?_⟩
  rintro j ⟨q, hq, hq1, rfl⟩
  exact root_le hP q.toNat q (by omega) hq hq1

end IndexPriorityQueue

/-! ## The theorems at concrete states -/

open IndexPriorityQueue

/-- The theorem `top_returns_minimum` at `sampleHeap`, whose `top()` is `(3, 1)`. -/
theorem top_returns_minimum_witness :
    (0 ≤ sampleHeap.size_ ∧ sampleHeap.empty = false ∧ sampleHeap.HeapOrdered) ∧
      sampleHeap.top = (3, 1) ∧
      (sampleHeap.Held sampleHeap.top.2 ∧ sampleHeap.top.1 = sampleHeap.prioAt sampleHeap.top.2 ∧
        ∀ j, sampleHeap.Held j → sampleHeap.top.1 ≤ sampleHeap.prioAt j) :=
  ⟨⟨by decide, by decide, heapOrdered_of_check _ (by decide)⟩, by decide,
    top_returns_minimum sampleHeap (by decide) (by decide)
      (heapOrdered_of_check _ (by decide))⟩

/-- The theorem `push_postcondition` at `sampleHeap` and `push(1, 3)`: the new
index swims from slot 4 to the root. -/
theorem push_postcondition_witness :
    (sampleHeap.WellFormed 4 ∧ sampleHeap.contains 3 = false) ∧
      (sampleHeap.push 1 3).priorityQueue = [0, 3, 1, 0, 2] ∧
      ((sampleHeap.push 1 3).WellFormed 4 ∧ (sampleHeap.push 1 3).contains 3 = true ∧
        (sampleHeap.push 1 3).prioAt 3 = 1 ∧
        (sampleHeap.push 1 3).size = sampleHeap.size + 1 ∧
        ∀ j, sampleHeap.contains j = true →
          (sampleHeap.push 1 3).contains j = true ∧
            (sampleHeap.push 1 3).prioAt j = sampleHeap.prioAt j) :=
  ⟨⟨wellFormed_of_check _ _ (by decide), by decide⟩, by decide,
    push_postcondition sampleHeap (wellFormed_of_check _ _ (by decide)) 3 (by decide)
      (by decide) (by decide) 1⟩

/-- The theorem `changeKey_postcondition` at `sampleHeap` and `changeKey(9, 1)`:
the root sinks to slot 2. -/
theorem changeKey_postcondition_witness :
    (sampleHeap.WellFormed 4 ∧ sampleHeap.contains 1 = true) ∧
      (sampleHeap.changeKey 9 1).priorityQueue = [0, 2, 1, 0, 0] ∧
      ((sampleHeap.changeKey 9 1).WellFormed 4 ∧ (sampleHeap.changeKey 9 1).contains 1 = true ∧
        (sampleHeap.changeKey 9 1).prioAt 1 = 9 ∧
        (sampleHeap.changeKey 9 1).size = sampleHeap.size ∧
        (∀ j, (sampleHeap.changeKey 9 1).contains j = sampleHeap.contains j) ∧
        ∀ j, j ≠ 1 → sampleHeap.contains j = true →
          (sampleHeap.changeKey 9 1).prioAt j = sampleHeap.prioAt j) :=
  ⟨⟨wellFormed_of_check _ _ (by decide), by decide⟩, by decide,
    changeKey_postcondition sampleHeap (wellFormed_of_check _ _ (by decide)) 1 (by decide) 9⟩

/-- The theorem `erase_postcondition` at `sampleHeap` and `erase(1)`, the index
at the root. -/
theorem erase_postcondition_witness :
    (sampleHeap.WellFormed 4 ∧ sampleHeap.contains 1 = true) ∧
      (sampleHeap.erase 1).priorityQueue = [0, 2, 0, 1, 0] ∧
      ((sampleHeap.erase 1).WellFormed 4 ∧ (sampleHeap.erase 1).contains 1 = false ∧
        (sampleHeap.erase 1).size = sampleHeap.size - 1 ∧
        ∀ j, j ≠ 1 → sampleHeap.contains j = true →
          (sampleHeap.erase 1).contains j = true ∧
            (sampleHeap.erase 1).prioAt j = sampleHeap.prioAt j) :=
  ⟨⟨wellFormed_of_check _ _ (by decide), by decide⟩, by decide,
    erase_postcondition sampleHeap (wellFormed_of_check _ _ (by decide)) 1 (by decide)⟩

/-- The theorem `pop_removes_minimum` at `sampleHeap`. -/
theorem pop_removes_minimum_witness :
    (sampleHeap.Slots 4 ∧ sampleHeap.HeapOrdered ∧ sampleHeap.empty = false) ∧
      sampleHeap.pop.priorityQueue = [0, 2, 0, 1, 0] ∧
      ((∀ j, sampleHeap.Held j → sampleHeap.prioAt (sampleHeap.pqAt 1) ≤ sampleHeap.prioAt j) ∧
        sampleHeap.pop.size_ = sampleHeap.size_ - 1 ∧ sampleHeap.pop.Slots 4 ∧
        (∀ j, sampleHeap.pop.Held j ↔ sampleHeap.Held j ∧ j ≠ sampleHeap.pqAt 1) ∧
        sampleHeap.pop.priorities = sampleHeap.priorities ∧ sampleHeap.pop.HeapOrdered) :=
  ⟨⟨slots_of_check _ _ (by decide), heapOrdered_of_check _ (by decide), by decide⟩, by decide,
    pop_removes_minimum sampleHeap (slots_of_check _ _ (by decide))
      (heapOrdered_of_check _ (by decide)) (by decide)⟩

/-! ## Where `pop` departs from its contract

Line 90 of the source runs after the swap of line 89, so
`priorityQueue[1]` is by then the index that was in the last slot: that index
is marked absent, and the removed index keeps its position 1. -/

/-- C1 at a concrete state. `twoHeap` is well-formed and non-empty and its
`top()` is `(1, 0)`; after `pop()` the size is one less, but `contains(0)` is
still true: the removed index 0 keeps `indexToPosition[0] = 1`, and index 1,
which is now at the root, is the one marked absent. -/
theorem pop_keeps_removed_index_present :
    twoHeap.WellFormed 2 ∧ twoHeap.empty = false ∧ twoHeap.top = (1, 0) ∧
      twoHeap.pop.size = twoHeap.size - 1 ∧ twoHeap.pop.contains 0 = true ∧
      twoHeap.pop.pqAt 1 = 1 ∧ twoHeap.pop.contains 1 = false :=
  ⟨wellFormed_of_check _ _ (by decide), by decide, by decide, by decide, by decide,
    by decide, by decide⟩

/-- C2 at a concrete call sequence. On a queue of capacity 3 the in-contract
calls `push(1,0); push(2,1); push(3,2); pop(); erase(0)` leave a queue whose
drain yields `(3, 2)` only: index 1 was pushed and never removed by a `pop`
or an `erase(1)`, yet it is not extracted (`erase(0)`, on the index that
`pop` had removed, took index 1 out of the heap). -/
theorem drain_misses_pushed_index :
    Reachable 3 (runCalls (construct 3) callsPopThenErase) ∧
      drain (runCalls (construct 3) [.push 1 0, .push 2 1, .push 3 2]) =
        [(1, 0), (2, 1), (3, 2)] ∧
      (runCalls (construct 3) [.push 1 0, .push 2 1, .push 3 2, .pop]).contains 0 = true ∧
      drain (runCalls (construct 3) callsPopThenErase) = [(3, 2)] :=
  ⟨⟨callsPopThenErase, by decide, rfl⟩, by decide, by decide, by decide⟩

/-- C3 at a concrete call sequence. On a queue of capacity 2, after the
in-contract calls `push(1,0); push(2,1); pop()` the size is 1 and heap slot 1
holds index 1, but `indexToPosition[1]` is `-1`, not 1; and `contains(0)` is
true with `indexToPosition[0] = 1` although slot 1 does not hold index 0. -/
theorem pop_breaks_bijection :
    Reachable 2 (runCalls (construct 2) callsPushPushPop) ∧
      (runCalls (construct 2) callsPushPushPop).size_ = 1 ∧
      (runCalls (construct 2) callsPushPushPop).pqAt 1 = 1 ∧
      (runCalls (construct 2) callsPushPushPop).posAt 1 = -1 ∧
      (runCalls (construct 2) callsPushPushPop).contains 0 = true ∧
      (runCalls (construct 2) callsPushPushPop).posAt 0 = 1 ∧
      (runCalls (construct 2) callsPushPushPop).pqAt
        ((runCalls (construct 2) callsPushPushPop).posAt 0) ≠ 0 :=
  ⟨⟨callsPushPushPop, by decide, rfl⟩, by decide, by decide, by decide, by decide,
    by decide, by decide⟩

/-- C4 at a concrete call sequence. On a queue of capacity 3, after the
in-contract calls `push(1,0); push(2,1); push(3,2); pop(); push(10,1)` the
size is 3, slot 1 is the parent of slot 2, and the priority at slot 1 is 10
while the priority at slot 2 is 3: heap order is broken (`push(10,1)` found
index 1 marked absent although it was at the root, and overwrote its
priority in place). -/
theorem heap_order_broken_after_pop :
    Reachable 3 (runCalls (construct 3) callsPopThenPush) ∧
      (runCalls (construct 3) callsPopThenPush).size_ = 3 ∧
      (2 : Int) / 2 = 1 ∧
      (runCalls (construct 3) callsPopThenPush).keyAt 1 = 10 ∧
      (runCalls (construct 3) callsPopThenPush).keyAt 2 = 3 ∧
      ¬ (runCalls (construct 3) callsPopThenPush).HeapOrdered := by
  refine ⟨⟨callsPopThenPush, by decide, rfl⟩, by decide, by decide, by decide,
    by decide, ?_⟩
  intro h
  have := (h 1 (le_refl 1)).1 (by decide)
  exact absurd this (by decide)

/-- C10 at a concrete call sequence. On a queue of capacity 2, after the
in-contract calls `push(1,0); push(2,1); pop()` heap slot 1 (of `1..size`,
size 1) holds index 1 with priority 2; `push(7, 1)` is not a no-op there: it
sets `priorities[1]` to 7 and raises the size to 2. -/
theorem duplicate_push_changes_state :
    Reachable 2 (runCalls (construct 2) callsPushPushPop) ∧
      (runCalls (construct 2) callsPushPushPop).Held 1 ∧
      (runCalls (construct 2) callsPushPushPop).prioAt 1 = 2 ∧
      (runCalls (construct 2) callsPushPushPop).size = 1 ∧
      ((runCalls (construct 2) callsPushPushPop).push 7 1).prioAt 1 = 7 ∧
      ((runCalls (construct 2) callsPushPushPop).push 7 1).size = 2 ∧
      (runCalls (construct 2) callsPushPushPop).push 7 1 ≠
        runCalls (construct 2) callsPushPushPop :=
  ⟨⟨callsPushPushPop, by decide, rfl⟩, ⟨1, by decide, by decide, by decide⟩, by decide,
    by decide, by decide, by decide, by decide⟩

/-- C11 at a concrete call sequence. On a queue of capacity 2, after the
in-contract calls `push(1,0); push(2,1); pop()` the size is 1, heap slot 1
holds index 1 and index 0 (removed by `pop`) is held in no slot of `1..size`;
`erase(0)` is not a no-op there: it lowers the size to 0, so that index 1 is
no longer held, and rewrites `indexToPosition`. -/
theorem erase_of_popped_index_changes_state :
    Reachable 2 (runCalls (construct 2) callsPushPushPop) ∧
      (runCalls (construct 2) callsPushPushPop).size = 1 ∧
      (runCalls (construct 2) callsPushPushPop).pqAt 1 = 1 ∧
      ¬ (runCalls (construct 2) callsPushPushPop).Held 0 ∧
      ((runCalls (construct 2) callsPushPushPop).erase 0).size = 0 ∧
      ((runCalls (construct 2) callsPushPushPop).erase 0).indexToPosition = [-1, 1] ∧
      (runCalls (construct 2) callsPushPushPop).erase 0 ≠
        runCalls (construct 2) callsPushPushPop := by
  refine ⟨⟨callsPushPushPop, by decide, rfl⟩, by decide, by decide, ?_, by decide, by decide,
    by decide⟩
  rintro ⟨p, h1, h2, h3⟩
  have hs : (runCalls (construct 2) callsPushPushPop).size_ = 1 := by decide
  rw [hs] at h2
  have hp : p = 1 := by omega
  subst hp
  exact absurd h3 (by decide)

/-- C12 at two concrete call sequences. On a queue of capacity 2, after the
in-contract calls `push(1,0); push(2,1); pop()` the size is 1 and heap slot 1
holds index 1, yet `contains(1)` is false and `contains(0)` is true: the slots
do not hold the indices that `contains` reports.  After a further `erase(0)`
the size is 0 while `contains` is true for one index of `[0, 2)`. -/
theorem size_accounting_broken :
    Reachable 2 (runCalls (construct 2) callsPushPushPop) ∧
      (runCalls (construct 2) callsPushPushPop).size = 1 ∧
      (runCalls (construct 2) callsPushPushPop).pqAt 1 = 1 ∧
      (runCalls (construct 2) callsPushPushPop).contains 1 = false ∧
      (runCalls (construct 2) callsPushPushPop).contains 0 = true ∧
      Reachable 2 (runCalls (construct 2) callsPopErase) ∧
      (runCalls (construct 2) callsPopErase).size = 0 ∧
      (runCalls (construct 2) callsPopErase).contains 1 = true ∧
      (runCalls (construct 2) callsPopErase).presentCount 2 = 1 :=
  ⟨⟨callsPushPushPop, by decide, rfl⟩, by decide, by decide, by decide, by decide,
    ⟨callsPopErase, by decide, rfl⟩, by decide, by decide, by decide⟩

/-- C13. The round-trip scenario on integer priorities, capacity 5: after
`push(10,0); push(5,1); push(20,2); push(1,3)` the result of `top()` is
`(1,3)`; after a following `pop()` it is `(5,1)`; after a following
`changeKey(0,2)` it is `(0,2)`; after a following `erase(1)`, `contains(1)` is
false and `size()` is 2; after a following `pop()`, `top()` is `(10,0)`. -/
theorem round_trip_scenario :
    (runCalls (construct 5) [.push 10 0, .push 5 1, .push 20 2, .push 1 3]).top = (1, 3) ∧
      (runCalls (construct 5) [.push 10 0, .push 5 1, .push 20 2, .push 1 3, .pop]).top
        = (5, 1) ∧
      (runCalls (construct 5)
        [.push 10 0, .push 5 1, .push 20 2, .push 1 3, .pop, .changeKey 0 2]).top = (0, 2) ∧
      (runCalls (construct 5)
        [.push 10 0, .push 5 1, .push 20 2, .push 1 3, .pop, .changeKey 0 2,
          .erase 1]).contains 1 = false ∧
      (runCalls (construct 5)
        [.push 10 0, .push 5 1, .push 20 2, .push 1 3, .pop, .changeKey 0 2,
          .erase 1]).size = 2 ∧
      (runCalls (construct 5) roundTrip).top = (10, 0) :=
  ⟨by decide, by decide, by decide, by decide, by decide, by decide⟩

/-- C19 at a concrete call sequence. On a queue of capacity 2 the in-contract
calls `push(1,0); push(2,1); pop(); erase(0); erase(1)` perform every access
within bounds and end with `size() = -1`, outside `0..N`.  In that state
`contains(0)` is true with `indexToPosition[0] = 1`, so a further `erase(0)`
passes the guard of line 98 and line 101 swaps `priorityQueue[1]` with
`priorityQueue[size_]`, that is with `priorityQueue[-1]`: the checked run of
the six calls faults. -/
theorem size_leaves_its_range :
    Reachable 2 (runCalls (construct 2) callsPopEraseErase) ∧
      (∀ c ∈ callsPopEraseErase ++ [Call.erase 0], c.inContract 2 = true) ∧
      runChecked (construct 2) callsPopEraseErase =
        some (runCalls (construct 2) callsPopEraseErase) ∧
      (runCalls (construct 2) callsPopEraseErase).size = -1 ∧
      (runCalls (construct 2) callsPopEraseErase).contains 0 = true ∧
      (runCalls (construct 2) callsPopEraseErase).posAt 0 = 1 ∧
      runChecked (construct 2) (callsPopEraseErase ++ [Call.erase 0]) = none :=
  ⟨⟨callsPopEraseErase, by decide, rfl⟩, by decide, by decide, by decide, by decide,
    by decide, by decide⟩

namespace IndexPriorityQueue

/-! ## The constructor and `contains` -/

theorem construct_posAt (N i : Int) (h0 : 0 ≤ i) (h1 : i < N) :
    (construct N : IndexPriorityQueue T).posAt i = -1 := by
  have h2 : i.toNat < N.toNat := by omega
  unfold posAt construct vget
  simp [h0, List.getD_eq_getElem?_getD, List.getElem?_replicate, h2]

theorem construct_length (N : Int) :
    ((construct N : IndexPriorityQueue T).indexToPosition.length : Int) = max N 0 := by
  unfold construct
  simp only [List.length_replicate]
  omega

/-- C15. Empty-queue behaviour: a freshly constructed queue (of any capacity
`N`, so of every capacity `N >= 1`) has `empty()` true and `size()` 0,
`contains(i)` is false for every integer `i`, in or out of range, and `pop()`
returns the state unchanged (it leaves by the guard of line 87, before any
vector is touched). -/
theorem fresh_queue_is_empty (N : Int) :
    (construct N : IndexPriorityQueue T).empty = true ∧
      (construct N : IndexPriorityQueue T).size = 0 ∧
      (∀ i : Int, (construct N : IndexPriorityQueue T).contains i = false) ∧
      (construct N : IndexPriorityQueue T).pop = construct N := by
  refine ⟨rfl, rfl, ?_, rfl⟩
  intro i
  have hlen := construct_length (T := T) N
  unfold contains
  split
  · rfl
  · rename_i h
    have h1 : 0 ≤ i ∧ i < N := by omega
    rw [construct_posAt N i h1.1 h1.2]
    rfl

theorem containsLogged_fst (s : IndexPriorityQueue T) (index : Int) :
    (s.containsLogged index).1 = s.contains index := by
  unfold containsLogged contains
  split <;> rfl

/-- C14. `contains` bounds-checks: in a state whose `indexToPosition` has
length `N`, for every integer `index` with `index < 0` or `index >= N`,
`contains(index)` returns false and reads no element (its list of reads is
empty); and for every `index` whatever, each position that `contains` reads
lies in `[0, N)`, so the read is never outside the vector. -/
theorem contains_bounds_check (s : IndexPriorityQueue T) (N : Int)
    (hlen : (s.indexToPosition.length : Int) = N) (index : Int)
    (h : index < 0 ∨ index ≥ N) :
    s.contains index = false ∧ s.containsLogged index = (false, []) ∧
      ∀ j : Int, (s.containsLogged j).1 = s.contains j ∧
        ∀ r ∈ (s.containsLogged j).2, 0 ≤ r ∧ r < N := by
  have hlog : s.containsLogged index = (false, []) := by
    unfold containsLogged
    rw [if_pos (by omega)]
  refine ⟨?_, hlog, ?_⟩
  · rw [← containsLogged_fst, hlog]
  · intro j
    refine ⟨containsLogged_fst s j, ?_⟩
    unfold containsLogged
    split
    · intro r hr
      exact absurd hr (List.not_mem_nil r)
    · rename_i hj
      intro r hr
      rw [List.mem_singleton] at hr
      omega

end IndexPriorityQueue

/-- The theorem `contains_bounds_check` at `sampleHeap` (capacity 4) and the
index 7. -/
theorem contains_bounds_check_witness :
    ((sampleHeap.indexToPosition.length : Int) = 4 ∧ ((7 : Int) < 0 ∨ (7 : Int) ≥ 4)) ∧
      (sampleHeap.contains 7 = false ∧ sampleHeap.containsLogged 7 = (false, []) ∧
        ∀ j : Int, (sampleHeap.containsLogged j).1 = sampleHeap.contains j ∧
          ∀ r ∈ (sampleHeap.containsLogged j).2, 0 ≤ r ∧ r < 4) :=
  ⟨⟨by decide, by decide⟩,
    contains_bounds_check sampleHeap 4 (by decide) 7 (by decide)⟩

namespace IndexPriorityQueue

/-! ## Termination of the loops -/

theorem swimRun_succ (n : Nat) (s : IndexPriorityQueue T) (k : Int) :
    swimRun (n + 1) s k =
      if k > 1 ∧ s.keyAt k < s.keyAt (parent k) then
        swimRun n (s.swapSlots k (parent k)) (parent k)
      else some s := rfl

theorem sinkRun_succ (n : Nat) (s : IndexPriorityQueue T) (k : Int) :
    sinkRun (n + 1) s k =
      if leftChild k ≤ s.size_ then
        if s.keyAt k ≤ s.keyAt (s.childOf k) then some s
        else sinkRun n (s.swapSlots k (s.childOf k)) (s.childOf k)
      else some s := rfl

theorem swimRun_eq :
    ∀ (n : Nat) (s : IndexPriorityQueue T) (k : Int), k ≤ (n : Int) →
      swimRun (n + 1) s k = some (swimLoop n s k) := by
  intro n
  induction n with
  | zero =>
    intro s k hk
    rw [swimRun_succ, if_neg (fun h => by simp at hk; omega)]
    rfl
  | succ n ih =>
    intro s k hk
    rw [swimRun_succ, swimLoop_succ]
    split_ifs with hc
    · apply ih
      rw [parent_eq k (by omega)]
      push_cast at hk
      omega
    · rfl

theorem sinkRun_eq :
    ∀ (n : Nat) (s : IndexPriorityQueue T) (k : Int), 0 ≤ k → s.size_ - k < (n : Int) →
      sinkRun (n + 1) s k = some (sinkLoop n s k) := by
  intro n
  induction n with
  | zero =>
    intro s k hk hf
    rw [sinkRun_succ, if_neg (by unfold leftChild; simp at hf; omega)]
    rfl
  | succ n ih =>
    intro s k hk hf
    rw [sinkRun_succ, sinkLoop_succ]
    split_ifs with hc hle
    · rfl
    · have hj := childOf_cases s k
      have hne : s.childOf k ≠ k := by
        intro h
        rw [h] at hle
        exact hle (le_refl _)
      apply ih
      · omega
      · rw [swapSlots_size]
        push_cast at hf
        omega
    · rfl

/-- C18. `swim` and `sink` terminate: for every state and every start
position `k >= 1`, a round of `swim` replaces `k > 1` by `parent(k)`, which is
at least 1 and strictly below `k`, and a round of `sink` replaces `k` by a
child, strictly above `k`; the loop of `swim(k)` is left after at most `k`
tests of its condition and the loop of `sink(k)` after at most `size + 2`,
with the states that `swim` and `sink` return.  (`push`, `pop`, `erase` and
`changeKey` are these calls after finitely many assignments, so they are
total functions of the state.) -/
theorem loops_terminate (s : IndexPriorityQueue T) (k : Int) (hk : 1 ≤ k) :
    (1 < k → 1 ≤ parent k ∧ parent k < k) ∧
      (k < leftChild k ∧ k < rightChild k) ∧
      (∀ fuel : Nat, k.toNat < fuel → swimRun fuel s k = some (s.swim k)) ∧
      (∀ fuel : Nat, s.size_.toNat + 1 < fuel → sinkRun fuel s k = some (s.sink k)) := by
  refine ⟨?_, ?_, ?_, ?_⟩
  · intro h1
    rw [parent_eq k (by omega)]
    omega
  · unfold leftChild rightChild
    omega
  · intro fuel hf
    obtain ⟨m, rfl⟩ : ∃ m, fuel = m + 1 := ⟨fuel - 1, by omega⟩
    rw [swimRun_eq m s k (by omega)]
    unfold swim
    rw [swimLoop_fuel k.toNat m s k (by omega) (by omega)]
  · intro fuel hf
    obtain ⟨m, rfl⟩ : ∃ m, fuel = m + 1 := ⟨fuel - 1, by omega⟩
    rw [sinkRun_eq m s k (by omega) (by omega)]
    unfold sink
    rw [sinkLoop_fuel (s.size_.toNat + 1) m s k (by omega) (by push_cast; omega) (by omega)]

end IndexPriorityQueue

/-- The theorem `loops_terminate` at slot 3 of `sampleHeap` with the key of
index 0 lowered to 1: `swim(3)` swaps once and ends at the root. -/
theorem loops_terminate_witness :
    (1 : Int) ≤ 3 ∧
      swimSwaps (sampleHeap.changeKeyPrepared 1 0) 3 = 1 ∧
      ((1 < (3 : Int) → 1 ≤ parent 3 ∧ parent 3 < 3) ∧
        ((3 : Int) < leftChild 3 ∧ (3 : Int) < rightChild 3) ∧
        (∀ fuel : Nat, (3 : Int).toNat < fuel →
          swimRun fuel (sampleHeap.changeKeyPrepared 1 0) 3 =
            some ((sampleHeap.changeKeyPrepared 1 0).swim 3)) ∧
        (∀ fuel : Nat, (sampleHeap.changeKeyPrepared 1 0).size_.toNat + 1 < fuel →
          sinkRun fuel (sampleHeap.changeKeyPrepared 1 0) 3 =
            some ((sampleHeap.changeKeyPrepared 1 0).sink 3))) :=
  ⟨by decide, by decide, loops_terminate (sampleHeap.changeKeyPrepared 1 0) 3 (by decide)⟩

namespace IndexPriorityQueue

/-! ## The two restorations of `erase` and `changeKey` -/

theorem swimSwaps_pos (s : IndexPriorityQueue T) (k : Int) (h : 0 < s.swimSwaps k) :
    k > 1 ∧ s.keyAt k < s.keyAt (parent k) := by
  by_contra hc
  unfold swimSwaps at h
  cases hn : k.toNat with
  | zero =>
    rw [hn] at h
    exact Nat.lt_irrefl 0 h
  | succ n =>
    rw [hn] at h
    have : swimRounds (n + 1) s k = 0 := by
      show (if k > 1 ∧ s.keyAt k < s.keyAt (parent k) then _ else 0) = 0
      rw [if_neg hc]
    omega

theorem sinkSwaps_zero (s : IndexPriorityQueue T) (k : Int) (hk : 1 ≤ k)
    (h : s.ParentOrdered) : s.sinkSwaps k = 0 := by
  unfold sinkSwaps
  show (if leftChild k ≤ s.size_ then
      if s.keyAt k ≤ s.keyAt (s.childOf k) then 0
      else sinkRounds (s.size_.toNat) (s.swapSlots k (s.childOf k)) (s.childOf k) + 1
    else 0) = 0
  unfold leftChild
  split_ifs with hc hle
  · rfl
  · exfalso
    apply hle
    have hj := childOf_cases s k
    have := h (s.childOf k) (by omega) (by omega)
    rwa [show s.childOf k / 2 = k by omega] at this
  · rfl

theorem sink_after_swim {N : Int} (s : IndexPriorityQueue T) (k : Int) (hS : s.Slots N)
    (hk : 1 ≤ k) (hk1 : k ≤ s.size_) (hB : s.OrderedBut k) (h : 0 < s.swimSwaps k) :
    (s.swim k).sinkSwaps k = 0 ∧ (s.swim k).sink k = s.swim k := by
  have hc := swimSwaps_pos s k h
  have hlt := hc.2
  rw [parent_eq k (by omega)] at hlt
  have hD : s.DownOk k := by
    intro c hc1 hck
    exact le_trans (le_of_lt hlt) (hB.2 c (by omega) hc1 hck)
  have hP := (heapOrdered_iff _).1 (swim_spec s k hS hk hk1 hB hD).2.2.2
  exact ⟨sinkSwaps_zero _ k hk hP, sink_noop _ k hk hP⟩

theorem erasePrepared_core {N : Int} (s : IndexPriorityQueue T) (hW : s.WellFormed N)
    (i : Int) (hc : s.contains i = true) :
    (s.erasePrepared i).Slots N ∧ 1 ≤ s.posAt i ∧
      (s.posAt i < s.size_ →
        (s.erasePrepared i).OrderedBut (s.posAt i) ∧ s.posAt i ≤ (s.erasePrepared i).size_) ∧
      (s.posAt i = s.size_ → (s.erasePrepared i).swimSwaps (s.posAt i) = 0) := by
  have hS := hW.slots
  have hP := (heapOrdered_iff s).1 hW.ordered
  obtain ⟨hp, hp1, -, -, -⟩ := held_position s hW i hc
  obtain ⟨hS4, -, hk, -, hlt, -⟩ := removeSlot_core s (s.erasePrepared i) hS (s.posAt i)
    hp hp1 rfl rfl rfl
  refine ⟨hS4, hp, ?_, ?_⟩
  · intro h
    refine ⟨hlt h hP, ?_⟩
    show s.posAt i ≤ s.size_ - 1
    omega
  · intro hlast
    by_contra hne
    have hpos : 0 < (s.erasePrepared i).swimSwaps (s.posAt i) := by omega
    obtain ⟨h1, h2⟩ := swimSwaps_pos _ _ hpos
    rw [parent_eq _ (by omega), hk, hk, hlast, exch_left,
      exch_other _ _ (s.size_ / 2) (by omega) (by omega)] at h2
    exact absurd (hP s.size_ (by omega) (le_refl _)) (not_le.mpr h2)

theorem changeKeyPrepared_core {N : Int} (s : IndexPriorityQueue T) (hW : s.WellFormed N)
    (i : Int) (hc : s.contains i = true) (k : T) :
    (s.changeKeyPrepared k i).Slots N ∧ 1 ≤ s.posAt i ∧
      s.posAt i ≤ (s.changeKeyPrepared k i).size_ ∧
      (s.changeKeyPrepared k i).OrderedBut (s.posAt i) := by
  have hS := hW.slots
  have hP := (heapOrdered_iff s).1 hW.ordered
  obtain ⟨hp, hp1, hpi, hi, hi1⟩ := held_position s hW i hc
  have hpr : ∀ j, (s.changeKeyPrepared k i).prioAt j = if j = i then k else s.prioAt j := by
    intro j
    exact vget_vset default s.priorities i j k hi (by have := hS.len_priorities; omega)
  have hkey : ∀ q, 1 ≤ q → q ≤ s.size_ → q ≠ s.posAt i →
      (s.changeKeyPrepared k i).keyAt q = s.keyAt q := by
    intro q h1 h2 h3
    show (s.changeKeyPrepared k i).prioAt (s.pqAt q) = s.prioAt (s.pqAt q)
    rw [hpr, if_neg]
    intro h
    rw [← hpi] at h
    exact h3 (hS.distinct q _ h1 h2 hp hp1 h)
  refine ⟨⟨?_, hS.len_priorityQueue, hS.size_nonneg, hS.size_le, hS.inRange, hS.distinct⟩,
    hp, hp1, ?_, ?_⟩
  · have := hS.len_priorities
    simpa [changeKeyPrepared, length_vset] using this
  · intro q h1 h2 h3 h4
    have h2' : q ≤ s.size_ := h2
    rw [hkey q (by omega) h2' h3, hkey (q / 2) (by omega) (by omega) h4]
    exact hP q h1 h2'
  · intro c h1 h2 h3
    have h2' : c ≤ s.size_ := h2
    rw [hkey c (by omega) h2' (by omega),
      hkey (s.posAt i / 2) (by omega) (by omega) (by omega)]
    have h5 := hP (s.posAt i) h1 hp1
    have h6 := hP c (by omega) h2'
    rw [h3] at h6
    exact le_trans h5 h6

/-- C17. At most one of the two restorations moves elements: in a well-formed
state, for a present index `i`, `erase(i)` is `sink(position)` after
`swim(position)` on the state that lines 101 to 104 prepare, and
`changeKey(k, i)`, for every key `k`, is the same on the state that line 122
prepares; in both, if `swim(position)` performs at least one swap then
`sink(position)` performs no swap and returns the state that `swim`
produced. -/
theorem restorations_exclusive {N : Int} (s : IndexPriorityQueue T) (hW : s.WellFormed N)
    (i : Int) (hc : s.contains i = true) :
    (s.erase i = ((s.erasePrepared i).swim (s.posAt i)).sink (s.posAt i) ∧
      (0 < (s.erasePrepared i).swimSwaps (s.posAt i) →
        ((s.erasePrepared i).swim (s.posAt i)).sinkSwaps (s.posAt i) = 0 ∧
        ((s.erasePrepared i).swim (s.posAt i)).sink (s.posAt i) =
          (s.erasePrepared i).swim (s.posAt i))) ∧
    ∀ k : T,
      s.changeKey k i = ((s.changeKeyPrepared k i).swim (s.posAt i)).sink (s.posAt i) ∧
      (0 < (s.changeKeyPrepared k i).swimSwaps (s.posAt i) →
        ((s.changeKeyPrepared k i).swim (s.posAt i)).sinkSwaps (s.posAt i) = 0 ∧
        ((s.changeKeyPrepared k i).swim (s.posAt i)).sink (s.posAt i) =
          (s.changeKeyPrepared k i).swim (s.posAt i)) := by
  have hp1 := (held_position s hW i hc).2.1
  refine ⟨⟨?_, ?_⟩, ?_⟩
  · rw [erase_eq s i hc]
    rfl
  · intro h
    obtain ⟨hS4, hp, hlt, hlast⟩ := erasePrepared_core s hW i hc
    by_cases hl : s.posAt i = s.size_
    · have := hlast hl
      omega
    · obtain ⟨hB, hle⟩ := hlt (by omega)
      exact sink_after_swim _ _ hS4 hp hle hB h
  · intro k
    obtain ⟨hS1, hp, hle, hB⟩ := changeKeyPrepared_core s hW i hc k
    refine ⟨?_, fun h => sink_after_swim _ _ hS1 hp hle hB h⟩
    rw [changeKey_eq s k i hc]
    rfl

end IndexPriorityQueue

/-- The theorem `restorations_exclusive` at `deepHeap` and index 3 (slot 4):
`erase(3)` moves the last index into slot 4, where `swim(4)` swaps once. -/
theorem restorations_exclusive_witness :
    (deepHeap.WellFormed 6 ∧ deepHeap.contains 3 = true) ∧
      (deepHeap.erasePrepared 3).swimSwaps (deepHeap.posAt 3) = 1 ∧
      (deepHeap.changeKeyPrepared 0 3).swimSwaps (deepHeap.posAt 3) = 2 ∧
      ((deepHeap.erase 3 =
          ((deepHeap.erasePrepared 3).swim (deepHeap.posAt 3)).sink (deepHeap.posAt 3) ∧
        (0 < (deepHeap.erasePrepared 3).swimSwaps (deepHeap.posAt 3) →
          ((deepHeap.erasePrepared 3).swim (deepHeap.posAt 3)).sinkSwaps (deepHeap.posAt 3) = 0 ∧
          ((deepHeap.erasePrepared 3).swim (deepHeap.posAt 3)).sink (deepHeap.posAt 3) =
            (deepHeap.erasePrepared 3).swim (deepHeap.posAt 3))) ∧
      ∀ k : Int,
        deepHeap.changeKey k 3 =
          ((deepHeap.changeKeyPrepared k 3).swim (deepHeap.posAt 3)).sink (deepHeap.posAt 3) ∧
        (0 < (deepHeap.changeKeyPrepared k 3).swimSwaps (deepHeap.posAt 3) →
          ((deepHeap.changeKeyPrepared k 3).swim (deepHeap.posAt 3)).sinkSwaps
              (deepHeap.posAt 3) = 0 ∧
          ((deepHeap.changeKeyPrepared k 3).swim (deepHeap.posAt 3)).sink (deepHeap.posAt 3) =
            (deepHeap.changeKeyPrepared k 3).swim (deepHeap.posAt 3))) :=
  ⟨⟨wellFormed_of_check _ _ (by decide), by decide⟩, by decide, by decide,
    restorations_exclusive deepHeap (wellFormed_of_check deepHeap 6 (by decide)) 3
      (by decide)⟩

namespace IndexPriorityQueue

/-! ## Pushing a list of pairs, then draining the queue -/

theorem construct_wellFormed (N : Int) (hN : 0 ≤ N) :
    (construct N : IndexPriorityQueue T).WellFormed N := by
  have hlen := construct_length (T := T) N
  refine ⟨⟨?_, ?_, le_refl 0, hN, ?_, ?_⟩, ⟨by omega, ?_, ?_⟩, ?_⟩
  · unfold construct
    simp only [List.length_replicate]
    omega
  · unfold construct
    simp only [List.length_replicate]
    omega
  · intro p h1 h2
    have : (construct N : IndexPriorityQueue T).size_ = 0 := rfl
    omega
  · intro p q h1 h2
    have : (construct N : IndexPriorityQueue T).size_ = 0 := rfl
    omega
  · intro i p _ _ h1 h2
    have : (construct N : IndexPriorityQueue T).size_ = 0 := rfl
    omega
  · intro i h0 h1 _
    exact construct_posAt N i h0 h1
  · intro p hp
    have : (construct N : IndexPriorityQueue T).size_ = 0 := rfl
    unfold leftChild rightChild
    constructor <;> intro h <;> omega

theorem push_held_spec {N : Int} (s : IndexPriorityQueue T) (hW : s.WellFormed N)
    (i : Int) (hi : 0 ≤ i) (hi1 : i < N) (hH : ¬ s.Held i) (p : T) :
    (s.push p i).WellFormed N ∧ (∀ j, (s.push p i).Held j ↔ s.Held j ∨ j = i) ∧
      (s.push p i).prioAt i = p ∧ ∀ j, j ≠ i → (s.push p i).prioAt j = s.prioAt j := by
  have hc : s.contains i = false := by
    have := (contains_iff_held hW.slots hW.inverse i).not.2 hH
    simpa using this
  rw [push_eq s p i hc]
  obtain ⟨hS4, hI4, hB4, hheld, hpi, hpj⟩ := push_core s hW i hi hi1 hH p _ rfl
  generalize hs4 : ({ priorities := vset s.priorities i p
                      priorityQueue := vset s.priorityQueue (s.size_ + 1) i
                      indexToPosition := vset s.indexToPosition i (s.size_ + 1)
                      size_ := s.size_ + 1 } : IndexPriorityQueue T) = s4
    at hS4 hI4 hB4 hheld hpi hpj ⊢
  have hsz : s4.size_ = s.size_ + 1 := by rw [← hs4]
  have h0 := hW.slots.size_nonneg
  obtain ⟨hS, hC, hI, hO⟩ := swim_spec s4 (s.size_ + 1) hS4 (by omega) (by omega) hB4
    (downOk_of_leaf s4 _ (by omega))
  have hprio : ∀ j, (s4.swim (s.size_ + 1)).prioAt j = s4.prioAt j := by
    intro j
    unfold prioAt
    rw [hC.priorities_eq]
  refine ⟨⟨hS, hI hI4, hO⟩, ?_, ?_, ?_⟩
  · intro j
    rw [hC.held_iff, hheld]
  · rw [hprio, hpi]
  · intro j hj
    rw [hprio, hpj j hj]

theorem pushCalls_spec {N : Int} :
    ∀ (l : List (T × Int)) (s : IndexPriorityQueue T), s.WellFormed N →
      (∀ x ∈ l, 0 ≤ x.2 ∧ x.2 < N ∧ ¬ s.Held x.2) → (l.map Prod.snd).Nodup →
      (runCalls s (pushCalls l)).WellFormed N ∧
        (∀ j, (runCalls s (pushCalls l)).Held j ↔ s.Held j ∨ j ∈ l.map Prod.snd) ∧
        (∀ x ∈ l, (runCalls s (pushCalls l)).prioAt x.2 = x.1) ∧
        (∀ j, j ∉ l.map Prod.snd → (runCalls s (pushCalls l)).prioAt j = s.prioAt j) := by
  intro l
  induction l with
  | nil =>
    intro s hW _ _
    refine ⟨hW, fun j => ?_, fun x hx => absurd hx (List.not_mem_nil x), fun _ _ => rfl⟩
    show s.Held j ↔ s.Held j ∨ j ∈ []
    simp
  | cons y l ih =>
    intro s hW hr hd
    have hstep : runCalls s (pushCalls (y :: l)) = runCalls (s.push y.1 y.2) (pushCalls l) :=
      rfl
    rw [hstep]
    rw [List.map_cons, List.nodup_cons] at hd
    obtain ⟨hy0, hy1, hyH⟩ := hr y (List.mem_cons_self y l)
    obtain ⟨hW1, hheld1, hp1, hpo1⟩ := push_held_spec s hW y.2 hy0 hy1 hyH y.1
    have hr1 : ∀ x ∈ l, 0 ≤ x.2 ∧ x.2 < N ∧ ¬ (s.push y.1 y.2).Held x.2 := by
      intro x hx
      obtain ⟨hx0, hx1, hxH⟩ := hr x (List.mem_cons_of_mem y hx)
      refine ⟨hx0, hx1, ?_⟩
      rw [hheld1]
      rintro (h | h)
      · exact hxH h
      · exact hd.1 (h ▸ List.mem_map_of_mem Prod.snd hx)
    obtain ⟨hW2, hheld2, hp2, hpo2⟩ := ih (s.push y.1 y.2) hW1 hr1 hd.2
    refine ⟨hW2, ?_, ?_, ?_⟩
    · intro j
      rw [hheld2, hheld1, List.map_cons, List.mem_cons]
      tauto
    · intro x hx
      rcases List.mem_cons.1 hx with rfl | hx
      · rw [hpo2 x.2 hd.1, hp1]
      · exact hp2 x hx
    · intro j hj
      rw [List.map_cons, List.mem_cons, not_or] at hj
      rw [hpo2 j hj.2, hpo1 j hj.1]

theorem pop_heap_spec {N : Int} (s : IndexPriorityQueue T) (hS : s.Slots N)
    (hO : s.HeapOrdered) (hne : s.empty = false) :
    s.pop.size_ = s.size_ - 1 ∧ s.pop.Slots N ∧
      (∀ j, s.pop.Held j ↔ s.Held j ∧ j ≠ s.pqAt 1) ∧
      s.pop.priorities = s.priorities ∧ s.pop.HeapOrdered := by
  have h1 := size_pos_of_nonempty s hS hne
  have hP := (heapOrdered_iff s).1 hO
  rw [pop_eq s hne]
  generalize hs3 : ({ priorities := s.priorities
                      priorityQueue := vswap 0 s.priorityQueue 1 s.size_
                      indexToPosition :=
                        vset s.indexToPosition (vget 0 (vswap 0 s.priorityQueue 1 s.size_) 1) (-1)
                      size_ := s.size_ - 1 } : IndexPriorityQueue T) = s3
  have hpq : s3.priorityQueue = vswap 0 s.priorityQueue 1 s.size_ := by rw [← hs3]
  have hpr : s3.priorities = s.priorities := by rw [← hs3]
  have hsz : s3.size_ = s.size_ - 1 := by rw [← hs3]
  obtain ⟨hS3, -, -, hheld, hlt, heq⟩ :=
    removeSlot_core s s3 hS 1 (le_refl 1) h1 hpq hpr hsz
  have hB : s3.OrderedBut 1 := by
    by_cases h : 1 < s.size_
    · exact hlt h hP
    · exact (heq (by omega) hP).orderedBut 1
  obtain ⟨hS4, hC, -, hO4⟩ := sink_spec s3 1 hS3 (le_refl 1) hB (fun h => absurd h (by decide))
  refine ⟨by rw [hC.size_eq, hsz], hS4, ?_, by rw [hC.priorities_eq, hpr], hO4⟩
  intro j
  rw [hC.held_iff, hheld]

theorem drainLoop_spec {N : Int} :
    ∀ (n : Nat) (s : IndexPriorityQueue T), s.Slots N → s.HeapOrdered → s.size_ = (n : Int) →
      List.Sorted (· ≤ ·) ((drainLoop n s).map Prod.fst) ∧
        ((drainLoop n s).map Prod.snd).Nodup ∧
        ∀ x : T × Int, x ∈ drainLoop n s ↔ (s.Held x.2 ∧ x.1 = s.prioAt x.2) := by
  intro n
  induction n with
  | zero =>
    intro s _ _ hsz
    refine ⟨List.sorted_nil, List.nodup_nil, ?_⟩
    intro x
    constructor
    · intro h
      exact absurd h (List.not_mem_nil x)
    · rintro ⟨⟨q, h1, h2, -⟩, -⟩
      simp at hsz
      omega
  | succ n ih =>
    intro s hS hO hsz
    have hne : s.empty = false := by
      unfold empty
      simp
      push_cast at hsz
      omega
    have hstep : drainLoop (n + 1) s = s.top :: drainLoop n s.pop := by
      show (if s.empty then [] else s.top :: drainLoop n s.pop) = _
      rw [hne]
      rfl
    obtain ⟨hsz1, hS1, hheld, hpr, hO1⟩ := pop_heap_spec s hS hO hne
    obtain ⟨hsorted, hnodup, hmem⟩ := ih s.pop hS1 hO1 (by rw [hsz1, hsz]; push_cast; omega)
    have hP := (heapOrdered_iff s).1 hO
    have hprio : ∀ j, s.pop.prioAt j = s.prioAt j := by
      intro j
      unfold prioAt
      rw [hpr]
    have h1 : 1 ≤ s.size_ := by
      push_cast at hsz
      omega
    rw [hstep]
    refine ⟨?_, ?_, ?_⟩
    · rw [List.map_cons, List.sorted_cons]
      refine ⟨?_, hsorted⟩
      intro b hb
      obtain ⟨x, hx, rfl⟩ := List.mem_map.1 hb
      obtain ⟨hxh, hxp⟩ := (hmem x).1 hx
      rw [hheld] at hxh
      obtain ⟨q, hq, hq1, hq2⟩ := hxh.1
      rw [hxp, hprio, ← hq2]
      exact root_le hP q.toNat q (by omega) hq hq1
    · rw [List.map_cons, List.nodup_cons]
      refine ⟨?_, hnodup⟩
      intro hin
      obtain ⟨x, hx, hx2⟩ := List.mem_map.1 hin
      have := ((hheld x.2).1 ((hmem x).1 hx).1).2
      exact this hx2
    · intro x
      rw [List.mem_cons, hmem, hheld, hprio]
      constructor
      · rintro (rfl | ⟨⟨h, -⟩, hp⟩)
        · exact ⟨⟨1, le_refl 1, h1, rfl⟩, rfl⟩
        · exact ⟨h, hp⟩
      · rintro ⟨h, hp⟩
        by_cases hx : x.2 = s.pqAt 1
        · left
          apply Prod.ext
          · rw [hp, hx]
            rfl
          · exact hx
        · exact Or.inr ⟨⟨h, hx⟩, hp⟩

end IndexPriorityQueue

/-- C16. Push-then-drain sorts: for every capacity `N` and every list of
`(priority, index)` pairs with pairwise distinct indices of `[0, N)`, pushing
them all into a freshly constructed queue and then recording `top()` and
calling `pop()` until `empty()` yields a permutation of the pushed pairs
(each pair once, each index with the priority it was pushed with) whose
priorities are in non-decreasing order. -/
theorem push_then_drain_sorts (N : Int) (l : List (T × Int))
    (hr : ∀ x ∈ l, 0 ≤ x.2 ∧ x.2 < N) (hd : (l.map Prod.snd).Nodup) :
    (drain (runCalls (construct N) (pushCalls l))).Perm l ∧
      List.Sorted (· ≤ ·) ((drain (runCalls (construct N) (pushCalls l))).map Prod.fst) := by
  rcases l with _ | ⟨y, l⟩
  · exact ⟨List.Perm.refl _, List.sorted_nil⟩
  · have hN : 0 ≤ N := by
      have := hr y (List.mem_cons_self y l)
      omega
    have hfresh : ∀ j, ¬ (construct N : IndexPriorityQueue T).Held j := by
      rintro j ⟨q, h1, h2, -⟩
      have : (construct N : IndexPriorityQueue T).size_ = 0 := rfl
      omega
    obtain ⟨hW, hheld, hp, -⟩ := pushCalls_spec (y :: l) (construct N)
      (construct_wellFormed N hN) (fun x hx => ⟨(hr x hx).1, (hr x hx).2, hfresh x.2⟩) hd
    generalize runCalls (construct N) (pushCalls (y :: l)) = s at hW hheld hp ⊢
    obtain ⟨hsorted, hnodup, hmem⟩ := drainLoop_spec s.size_.toNat s hW.slots hW.ordered
      (by have := hW.slots.size_nonneg; omega)
    refine ⟨?_, hsorted⟩
    show (drainLoop s.size_.toNat s).Perm (y :: l)
    rw [List.perm_ext_iff_of_nodup (List.Nodup.of_map Prod.snd hnodup)
      (List.Nodup.of_map Prod.snd hd)]
    intro x
    rw [hmem, hheld]
    constructor
    · rintro ⟨h, hx⟩
      rcases h with h | h
      · exact absurd h (hfresh x.2)
      · obtain ⟨z, hz, hz2⟩ := List.mem_map.1 h
        have := hp z hz
        rw [hz2, ← hx] at this
        have hxz : x = z := Prod.ext this hz2.symm
        rw [hxz]
        exact hz
    · intro hx
      exact ⟨Or.inr (List.mem_map_of_mem Prod.snd hx), (hp x hx).symm⟩

/-- The theorem `push_then_drain_sorts` at five pairs on a queue of capacity
6, two of them with the same priority. -/
theorem push_then_drain_sorts_witness :
    ((∀ x ∈ [((5 : Int), (3 : Int)), (2, 0), (9, 5), (1, 1), (2, 4)], 0 ≤ x.2 ∧ x.2 < 6) ∧
      ([((5 : Int), (3 : Int)), (2, 0), (9, 5), (1, 1), (2, 4)].map Prod.snd).Nodup) ∧
    drain (runCalls (construct 6) (pushCalls [((5 : Int), (3 : Int)), (2, 0), (9, 5), (1, 1),
      (2, 4)])) = [(1, 1), (2, 4), (2, 0), (5, 3), (9, 5)] ∧
    ((drain (runCalls (construct 6) (pushCalls [((5 : Int), (3 : Int)), (2, 0), (9, 5),
        (1, 1), (2, 4)]))).Perm [((5 : Int), (3 : Int)), (2, 0), (9, 5), (1, 1), (2, 4)] ∧
      List.Sorted (· ≤ ·) ((drain (runCalls (construct 6) (pushCalls [((5 : Int), (3 : Int)),
        (2, 0), (9, 5), (1, 1), (2, 4)]))).map Prod.fst)) :=
  ⟨⟨by decide, by decide⟩, by decide,
    push_then_drain_sorts 6 [(5, 3), (2, 0), (9, 5), (1, 1), (2, 4)] (by decide) (by decide)⟩

namespace IndexPriorityQueue

/-! ## The checked operations agree with the total ones -/

theorem vgetChecked_some {α : Type} (d : α) (xs : List α) (i : Int) (v : α)
    (h : vgetChecked xs i = some v) : vget d xs i = v := by
  unfold vgetChecked at h
  split at h
  · rename_i hb
    unfold vget
    rw [if_pos hb.1, List.getD_eq_getElem?_getD]
    rw [List.get?_eq_getElem?] at h
    rw [h]
    rfl
  · exact absurd h (by simp)

theorem vsetChecked_some {α : Type} (xs ys : List α) (i : Int) (v : α)
    (h : vsetChecked xs i v = some ys) : vset xs i v = ys := by
  unfold vsetChecked at h
  split at h
  · rename_i hb
    unfold vset
    rw [if_pos hb.1]
    exact Option.some.inj h
  · exact absurd h (by simp)

theorem vswapChecked_some {α : Type} (d : α) (xs ys : List α) (i j : Int)
    (h : vswapChecked xs i j = some ys) : vswap d xs i j = ys := by
  unfold vswapChecked at h
  simp only [Option.bind_eq_bind, Option.bind_eq_some] at h
  obtain ⟨a, ha, b, hb, xs1, h1, h2⟩ := h
  unfold vswap
  rw [vgetChecked_some d xs i a ha, vgetChecked_some d xs j b hb,
    vsetChecked_some xs xs1 i b h1]
  exact vsetChecked_some xs1 ys j a h2

theorem keyAtChecked_some (s : IndexPriorityQueue T) (p : Int) (v : T)
    (h : s.keyAtChecked p = some v) : s.keyAt p = v := by
  unfold keyAtChecked at h
  simp only [Option.bind_eq_bind, Option.bind_eq_some] at h
  obtain ⟨i, hi, hv⟩ := h
  unfold keyAt pqAt prioAt
  rw [vgetChecked_some 0 _ p i hi]
  exact vgetChecked_some default _ i v hv

theorem containsChecked_eq (s : IndexPriorityQueue T) (index : Int) :
    s.containsChecked index = some (s.contains index) := by
  unfold containsChecked contains
  split
  · rfl
  · rename_i hb
    have hr : 0 ≤ index ∧ index < (s.indexToPosition.length : Int) := by omega
    have hlt : index.toNat < s.indexToPosition.length := by omega
    unfold posAt vget vgetChecked
    rw [if_pos hr, if_pos hr.1, List.getD_eq_getElem?_getD, List.get?_eq_getElem?,
      List.getElem?_eq_getElem hlt]
    rfl

theorem swapSlotsChecked_some (s t : IndexPriorityQueue T) (k j : Int)
    (h : s.swapSlotsChecked k j = some t) : s.swapSlots k j = t := by
  unfold swapSlotsChecked at h
  simp only [Option.bind_eq_bind, Option.bind_eq_some, Option.pure_def, Option.some.injEq] at h
  obtain ⟨a, ha, b, hb, itp, hitp, pq, hpq, rfl⟩ := h
  unfold swapSlots pqAt
  rw [vgetChecked_some 0 _ k a ha, vgetChecked_some 0 _ j b hb]
  simp only
  rw [vswapChecked_some 0 _ itp a b hitp, vswapChecked_some 0 _ pq k j hpq]

theorem swimLoopChecked_some :
    ∀ (fuel : Nat) (s t : IndexPriorityQueue T) (k : Int),
      swimLoopChecked fuel s k = some t → swimLoop fuel s k = t := by
  intro fuel
  induction fuel with
  | zero =>
    intro s t k h
    exact Option.some.inj h
  | succ n ih =>
    intro s t k h
    rw [swimLoop_succ]
    unfold swimLoopChecked at h
    by_cases hk : k > 1
    · rw [if_pos hk] at h
      simp only [Option.bind_eq_bind, Option.bind_eq_some] at h
      obtain ⟨a, ha, b, hb, h⟩ := h
      have ha1 := keyAtChecked_some s k a ha
      have hb1 := keyAtChecked_some s (parent k) b hb
      by_cases hlt : a < b
      · rw [if_pos hlt] at h
        simp only [Option.bind_eq_bind, Option.bind_eq_some] at h
        obtain ⟨s1, hs1, h⟩ := h
        rw [if_pos ⟨hk, by rw [ha1, hb1]; exact hlt⟩, swapSlotsChecked_some s s1 _ _ hs1]
        exact ih s1 t _ h
      · rw [if_neg hlt] at h
        rw [if_neg (fun hc => hlt (by rw [← ha1, ← hb1]; exact hc.2))]
        exact Option.some.inj h
    · rw [if_neg hk] at h
      rw [if_neg (fun hc => hk hc.1)]
      exact Option.some.inj h

theorem sinkLoopChecked_some :
    ∀ (fuel : Nat) (s t : IndexPriorityQueue T) (k : Int),
      sinkLoopChecked fuel s k = some t → sinkLoop fuel s k = t := by
  intro fuel
  induction fuel with
  | zero =>
    intro s t k h
    exact Option.some.inj h
  | succ n ih =>
    intro s t k h
    rw [sinkLoop_succ]
    unfold sinkLoopChecked at h
    by_cases hk : leftChild k ≤ s.size_
    · rw [if_pos hk] at h
      rw [if_pos hk]
      simp only [Option.bind_eq_bind, Option.bind_eq_some] at h
      obtain ⟨j, hj, a, ha, b, hb, h⟩ := h
      have hjc : j = s.childOf k := by
        unfold childOf
        by_cases hlt : leftChild k < s.size_
        · rw [if_pos hlt] at hj
          simp only [Option.bind_eq_bind, Option.bind_eq_some, Option.pure_def,
            Option.some.injEq] at hj
          obtain ⟨x, hx, y, hy, rfl⟩ := hj
          rw [keyAtChecked_some s _ x hx, keyAtChecked_some s _ y hy]
          by_cases hxy : x > y
          · rw [if_pos hxy, if_pos ⟨hlt, hxy⟩]
          · rw [if_neg hxy, if_neg (fun hc => hxy hc.2)]
        · rw [if_neg hlt] at hj
          rw [if_neg (fun hc => hlt hc.1)]
          exact (Option.some.inj hj).symm
      subst hjc
      have ha1 := keyAtChecked_some s k a ha
      have hb1 := keyAtChecked_some s _ b hb
      by_cases hle : a ≤ b
      · rw [if_pos hle] at h
        rw [if_pos (by rw [ha1, hb1]; exact hle)]
        exact Option.some.inj h
      · rw [if_neg hle] at h
        simp only [Option.bind_eq_bind, Option.bind_eq_some] at h
        obtain ⟨s1, hs1, h⟩ := h
        rw [if_neg (by rw [ha1, hb1]; exact hle), swapSlotsChecked_some s s1 _ _ hs1]
        exact ih s1 t _ h
    · rw [if_neg hk] at h
      rw [if_neg hk]
      exact Option.some.inj h

theorem pushChecked_some (s t : IndexPriorityQueue T) (p : T) (i : Int)
    (h : s.pushChecked p i = some t) : s.push p i = t := by
  unfold pushChecked at h
  rw [containsChecked_eq] at h
  simp only [Option.bind_eq_bind, Option.some_bind] at h
  unfold push
  by_cases hc : s.contains i = true
  · rw [if_pos hc] at h
    rw [if_pos hc]
    exact Option.some.inj h
  · rw [if_neg hc] at h
    rw [if_neg hc]
    simp only [Option.bind_eq_bind, Option.bind_eq_some] at h
    obtain ⟨pr, hpr, pq, hpq, itp, hitp, h⟩ := h
    simp only
    rw [vsetChecked_some _ pr i p hpr, vsetChecked_some _ pq _ i hpq,
      vsetChecked_some _ itp i _ hitp]
    exact swimLoopChecked_some _ _ t _ h

theorem popChecked_some (s t : IndexPriorityQueue T)
    (h : s.popChecked = some t) : s.pop = t := by
  unfold popChecked at h
  unfold pop
  by_cases hc : s.empty = true
  · rw [if_pos hc] at h
    rw [if_pos hc]
    exact Option.some.inj h
  · rw [if_neg hc] at h
    rw [if_neg hc]
    simp only [Option.bind_eq_bind, Option.bind_eq_some] at h
    obtain ⟨pq, hpq, root, hroot, itp, hitp, h⟩ := h
    simp only [pqAt]
    rw [vswapChecked_some 0 _ pq 1 _ hpq, vgetChecked_some 0 _ 1 root hroot,
      vsetChecked_some _ itp root _ hitp]
    exact sinkLoopChecked_some _ _ t _ h

theorem eraseChecked_some (s t : IndexPriorityQueue T) (i : Int)
    (h : s.eraseChecked i = some t) : s.erase i = t := by
  unfold eraseChecked at h
  rw [containsChecked_eq] at h
  simp only [Option.bind_eq_bind, Option.some_bind] at h
  unfold erase
  by_cases hc : (!s.contains i) = true
  · rw [if_pos hc] at h
    rw [if_pos hc]
    exact Option.some.inj h
  · rw [if_neg hc] at h
    rw [if_neg hc]
    simp only [Option.bind_eq_bind, Option.bind_eq_some] at h
    obtain ⟨pos, hpos, pq, hpq, moved, hmoved, itp, hitp, itp2, hitp2, s5, hs5, h⟩ := h
    simp only [pqAt, posAt]
    rw [vgetChecked_some 0 _ i pos hpos, vswapChecked_some 0 _ pq pos _ hpq,
      vgetChecked_some 0 _ pos moved hmoved, vsetChecked_some _ itp moved pos hitp,
      vsetChecked_some _ itp2 i _ hitp2]
    have h5 := swimLoopChecked_some _ _ s5 _ hs5
    unfold swim sink
    rw [h5]
    exact sinkLoopChecked_some _ _ t _ h

theorem changeKeyChecked_some (s t : IndexPriorityQueue T) (k : T) (i : Int)
    (h : s.changeKeyChecked k i = some t) : s.changeKey k i = t := by
  unfold changeKeyChecked at h
  rw [containsChecked_eq] at h
  simp only [Option.bind_eq_bind, Option.some_bind] at h
  unfold changeKey
  by_cases hc : (!s.contains i) = true
  · rw [if_pos hc] at h
    rw [if_pos hc]
    exact pushChecked_some s t k i h
  · rw [if_neg hc] at h
    rw [if_neg hc]
    simp only [Option.bind_eq_bind, Option.bind_eq_some] at h
    obtain ⟨pr, hpr, pos, hpos, s2, hs2, h⟩ := h
    simp only [posAt]
    rw [vsetChecked_some _ pr i k hpr, vgetChecked_some 0 _ i pos hpos]
    have h2 := swimLoopChecked_some _ _ s2 _ hs2
    unfold swim sink
    rw [h2]
    exact sinkLoopChecked_some _ _ t _ h

theorem runChecked_some :
    ∀ (cs : List (Call T)) (s t : IndexPriorityQueue T),
      s.runChecked cs = some t → runCalls s cs = t := by
  intro cs
  induction cs with
  | nil =>
    intro s t h
    exact Option.some.inj h
  | cons c cs ih =>
    intro s t h
    unfold runChecked at h
    rw [Option.bind_eq_some] at h
    obtain ⟨s1, hs1, h⟩ := h
    have hstep : c.perform s = s1 := by
      cases c with
      | push p i => exact pushChecked_some s s1 p i hs1
      | pop => exact popChecked_some s s1 hs1
      | erase i => exact eraseChecked_some s s1 i hs1
      | changeKey k i => exact changeKeyChecked_some s s1 k i hs1
    show runCalls (c.perform s) cs = t
    rw [hstep]
    exact ih s1 t h

end IndexPriorityQueue

end IndexPQ
